import Mathlib

/-!
Verification of the datakit-filter execution engine.

Shallow embedding of the core of the filter: the Payload model and the
header conversions (src/src/data.rs), the dependency graph
(src/src/dependency_graph.rs), the per-transaction Data store with its
scheduler gate can_trigger, the scheduler loop run_nodes and the phase
callbacks of the filter driver (src/src/filter.rs), the Call node
(src/src/nodes/call.rs), the JQ node (src/datakit-filter/src/nodes/jq.rs),
and configuration loading (src/datakit-filter/src/config.rs).

External collaborators (the JSON parser and serializer, the URL parser,
the jq filter interpreter, the host ABI) are modelled as explicit
function parameters; everything the engine itself does is translated
directly from the source.
-/

namespace Datakit

/-- Byte strings are modelled as lists of naturals. -/
abbrev Bytes := List Nat

/-- JSON trees (serde_json::Value). Numbers are irrelevant to the claims
and are modelled as integers. -/
inductive Json where
  | null : Json
  | bool (b : Bool) : Json
  | num (n : Int) : Json
  | str (s : String) : Json
  | arr (xs : List Json) : Json
  | obj (kvs : List (String × Json)) : Json
deriving Repr

/-- Payload (src/src/data.rs): a tagged value travelling between nodes. -/
inductive Payload where
  | raw (bytes : Bytes) : Payload
  | json (j : Json) : Payload
  | error (msg : String) : Payload
deriving Repr

/-- State (src/src/data.rs): per-transaction lifecycle status of a node. -/
inductive NState where
  | waiting (token : Nat) : NState
  | done (p : Option Payload) : NState
  | fail (p : Option Payload) : NState
deriving Repr

/-- Association-list lookup with decidable string keys, mirroring
BTreeMap::get. -/
def lookupS {α : Type} : List (String × α) → String → Option α
  | [], _ => none
  | (k, v) :: t, n => if k = n then some v else lookupS t n

/-- Association-list insert-or-overwrite, mirroring BTreeMap::insert. -/
def upsert {α : Type} : List (String × α) → String → α → List (String × α)
  | [], k, v => [(k, v)]
  | (k', v') :: t, k, v => if k' = k then (k, v) :: t else (k', v') :: upsert t k v

/-- Helper of DependencyGraph::add (src/src/dependency_graph.rs,
fn add_to): append value to the entry of key, suppressing duplicates. -/
def add_to : List (String × List String) → String → String → List (String × List String)
  | [], k, v => [(k, [v])]
  | (k', vs) :: t, k, v =>
    if k' = k then (k', if v ∈ vs then vs else vs ++ [v]) :: t
    else (k', vs) :: add_to t k v

/-- DependencyGraph (src/src/dependency_graph.rs): two mappings from node
name to ordered lists of names. -/
structure DependencyGraph where
  dependents : List (String × List String)
  providers : List (String × List String)
deriving Repr

namespace DependencyGraph

/-- DependencyGraph::add. -/
def add (g : DependencyGraph) (src dst : String) : DependencyGraph :=
  { dependents := add_to g.dependents src dst,
    providers := add_to g.providers dst src }

/-- DependencyGraph::each_input: the ordered providers of a name. -/
def each_input (g : DependencyGraph) (name : String) : List String :=
  (lookupS g.providers name).getD []

/-- DependencyGraph::has_dependents. -/
def has_dependents (g : DependencyGraph) (name : String) : Bool :=
  (lookupS g.dependents name).isSome

/-- DependencyGraph::has_providers. -/
def has_providers (g : DependencyGraph) (name : String) : Bool :=
  (lookupS g.providers name).isSome

end DependencyGraph

/-- Data (src/src/data.rs): the per-transaction state store. -/
structure Data where
  graph : DependencyGraph
  states : List (String × NState)
deriving Repr

namespace Data

/-- Data::new. -/
def new (graph : DependencyGraph) : Data := { graph := graph, states := [] }

/-- Data::set: record or overwrite the state of a node. -/
def set (d : Data) (name : String) (st : NState) : Data :=
  { d with states := upsert d.states name st }

/-- Lookup of states[name], mirroring self.states.get(name). -/
def stateGet (d : Data) (name : String) : Option NState :=
  lookupS d.states name

/-- Data::can_trigger (src/src/data.rs lines 189-223): the scheduler gate.
A recorded Done or Fail closes the gate; Waiting(w) passes only with an
exact resume-token match; then every provider must be recorded Done. -/
def can_trigger (d : Data) (name : String) (waiting : Option Nat) : Bool :=
  (match d.stateGet name with
   | some (.done _) => false
   | some (.fail _) => false
   | some (.waiting w) =>
     match waiting with
     | some id => decide (w = id)
     | none => false
   | none => true) &&
  (d.graph.each_input name).all (fun i =>
    match d.stateGet i with
    | some (.done _) => true
    | _ => false)

/-- Data::get_inputs_for: if the gate is open, the ordered payloads of the
providers that are recorded Done. -/
def get_inputs_for (d : Data) (name : String) (waiting : Option Nat) :
    Option (List (Option Payload)) :=
  if can_trigger d name waiting then
    some ((d.graph.each_input name).foldl
      (fun acc i =>
        match d.stateGet i with
        | some (.done p) => acc ++ [p]
        | _ => acc) [])
  else
    none

/-- Data::first_input_for: same gate, then the payload of the first
provider recorded Done (which may itself be empty). -/
def first_input_for (d : Data) (name : String) (waiting : Option Nat) :
    Option Payload :=
  if can_trigger d name waiting then
    (((d.graph.each_input name).findSome? (fun i =>
      match d.stateGet i with
      | some (.done p) => some p
      | _ => none)).getD none)
  else
    none

end Data

/-- Reserved implicit node names (src/datakit-filter/src/config.rs lines
13-27): four sources and four sinks of the HTTP transaction. -/
def reservedNodeNames : List String :=
  ["request_headers", "request_body", "service_request_headers",
   "service_request_body", "service_response_headers",
   "service_response_body", "response_headers", "response_body"]

/-- StringOrVec (src/src/data.rs lines 118-123): the values of the header
map built by from_pwm_headers. -/
inductive StringOrVec where
  | str (s : String) : StringOrVec
  | vec (vs : List String) : StringOrVec
deriving Repr

/-- Insertion into a key-sorted association list, mirroring the ordering
maintained by BTreeMap::insert. -/
def insertSorted {α : Type} (k : String) (v : α) : List (String × α) → List (String × α)
  | [] => [(k, v)]
  | (k', v') :: t =>
    if k < k' then (k, v) :: (k', v') :: t
    else if k = k' then (k, v) :: t
    else (k', v') :: insertSorted k v t

/-- One step of the loop of from_pwm_headers: lowercase the name, then
either start a string entry, upgrade a string entry to a two-element
array, or append to an array entry. -/
def fromPwmStep (m : List (String × StringOrVec)) (kv : String × String) :
    List (String × StringOrVec) :=
  match lookupS m kv.1.toLower with
  | some (.str s) => insertSorted kv.1.toLower (.vec [s, kv.2]) m
  | some (.vec vs) => insertSorted kv.1.toLower (.vec (vs ++ [kv.2])) m
  | none => insertSorted kv.1.toLower (.str kv.2) m

/-- Serialization of a StringOrVec into JSON, as serde renders the map
values of from_pwm_headers. -/
def StringOrVec.toJson : StringOrVec → Json
  | .str s => .str s
  | .vec vs => .arr (vs.map Json.str)

/-- from_pwm_headers (src/src/data.rs lines 125-146): lowercase each name,
turn repeated names into arrays preserving order, return the resulting
JSON object as a payload. -/
def from_pwm_headers (vec : List (String × String)) : Payload :=
  .json (.obj ((vec.foldl fromPwmStep []).map (fun kv => (kv.1, kv.2.toJson))))

/-- Header pairs contributed by one entry of the JSON object in
Payload::to_pwm_headers: a string value gives one pair, an array gives
one pair per string element, other shapes give nothing. -/
def headerPairsOfEntry (kv : String × Json) : List (String × String) :=
  match kv.2 with
  | .arr vs =>
    vs.filterMap (fun x =>
      match x with
      | .str s => some (kv.1, s)
      | _ => none)
  | .str s => [(kv.1, s)]
  | _ => []

/-- Payload::to_pwm_headers (src/src/data.rs lines 82-115): a JSON object
payload becomes header pairs pushed in iteration order; any other payload
gives no pairs. -/
def Payload.to_pwm_headers : Payload → List (String × String)
  | .json (.obj kvs) => kvs.foldl (fun acc kv => acc ++ headerPairsOfEntry kv) []
  | _ => []

/-- to_pwm_headers on an optional payload (src/src/data.rs lines 148-150). -/
def to_pwm_headers : Option Payload → List (String × String)
  | some p => p.to_pwm_headers
  | none => []

/-- Payload::to_bytes (src/src/data.rs lines 63-72), with the external
JSON serializer passed explicitly. -/
def Payload.to_bytes (ser : Json → Except String Bytes) : Payload → Except String Bytes
  | .json v => ser v
  | .raw s => .ok s
  | .error e => .error e

/-- to_pwm_body (src/src/data.rs lines 154-162). -/
def to_pwm_body (ser : Json → Except String Bytes) : Option Payload → Except String (Option Bytes)
  | some p =>
    match p.to_bytes ser with
    | .ok b => .ok (some b)
    | .error e => .error e
  | none => .ok none

/-- Payload::from_bytes (src/src/data.rs lines 36-50): parse as JSON when
the content type says so (a parse error becomes an error payload), keep
raw bytes under any other content type, produce nothing without one. -/
def Payload.from_bytes (parse : Bytes → Except String Json) (bytes : Bytes) :
    Option String → Option Payload
  | some ct =>
    if ct = "application/json" then
      match parse bytes with
      | .ok v => some (.json v)
      | .error e => some (.error e)
    else some (.raw bytes)
  | none => none

/-- Payload::len (src/src/data.rs lines 74-80). -/
def Payload.len : Payload → Option Nat
  | .json _ => none
  | .raw s => some s.length
  | .error e => some e.length

/-- Payload::content_type (src/src/data.rs lines 29-34). -/
def Payload.content_type : Payload → Option String
  | .json _ => some "application/json"
  | _ => none

/-- Parsed URL pieces; the url crate is an external collaborator, so
parsing is abstracted behind this record. -/
structure UrlParts where
  scheme : String
  host : Option String
  port : Option Nat
  path : String

/-- CallConfig (src/src/nodes/call.rs lines 14-23). -/
structure CallConfig where
  url : String
  method : String
  timeout : Nat

/-- External collaborators of the Call node: the URL parser, the JSON
serializer, and the subrequest dispatch of the host. A dispatch failure
carries the debug rendering of the host status. -/
structure CallEnv where
  urlParse : String → Option UrlParts
  ser : Json → Except String Bytes
  dispatch : String → List (String × String) → Option Bytes → Except String Nat

/-- Call::run (src/src/nodes/call.rs lines 36-91): a URL parse failure or
a URL without a host gives Done(None); a body serialization failure gives
Fail; otherwise the subrequest is dispatched, returning Waiting with the
host token on success and Fail on a dispatch error. -/
def Call.run (env : CallEnv) (config : CallConfig) (inputs : List (Option Payload)) : NState :=
  let body : Option Payload := (inputs.head?).getD none
  let headers : Option Payload := (inputs[1]?).getD none
  match env.urlParse config.url with
  | none => .done none
  | some call_url =>
    match call_url.host with
    | none => .done none
    | some host =>
      let headers_vec := to_pwm_headers headers ++
        [(":method", config.method), (":path", call_url.path), (":scheme", call_url.scheme)]
      match to_pwm_body env.ser body with
      | .error e => .fail (some (.error e))
      | .ok body_slice =>
        let host_port :=
          match call_url.port with
          | some port => host ++ ":" ++ toString port
          | none => host
        match env.dispatch host_port headers_vec body_slice with
        | .ok id => .waiting id
        | .error status => .fail (some (.error ("error: " ++ status)))

/-- Conversion of collected jq errors into a node state (impl
From Errors for State, src/datakit-filter/src/nodes/jq.rs lines 70-79):
the messages are joined with a comma. -/
def errorsToState (errs : List String) : NState :=
  .fail (some (.error
    (if errs.isEmpty then "unknown jq error" else String.intercalate ", " errs)))

/-- Jq::run (src/datakit-filter/src/nodes/jq.rs lines 183-206) over the
result of executing the compiled filter on the bound inputs: zero results
give Done(None), a single result is unwrapped, several results are
wrapped into an array, and errors become a Fail. -/
def Jq.run (exec : List (Option Payload) → Except (List String) (List Json))
    (inputs : List (Option Payload)) : NState :=
  match exec inputs with
  | .ok results =>
    .done (match results with
      | [] => none
      | [item] => some (.json item)
      | rs => some (.json (.arr rs)))
  | .error errs => errorsToState errs

/-- UserNodeConfig (src/datakit-filter/src/config.rs lines 29-35): one
parsed node declaration. -/
structure UserNodeConfig where
  node_type : String
  name : String
  bt : List (String × Json)
  inputs : List String
  outputs : List String

/-- Compiled Config (src/datakit-filter/src/config.rs lines 134-138),
reduced to the parts the engine reads. -/
structure Config where
  node_names : List String
  graph : DependencyGraph

/-- First loop of Config::new (src/datakit-filter/src/config.rs lines
148-162): reject reserved node names, collect names in declared order and
populate the dependency graph. -/
def configCheck : List UserNodeConfig → List String → DependencyGraph →
    Except String (List String × DependencyGraph)
  | [], names, graph => .ok (names, graph)
  | unc :: rest, names, graph =>
    if unc.name ∈ reservedNodeNames then
      .error ("cannot use reserved node name '" ++ unc.name ++ "'")
    else
      configCheck rest (names ++ [unc.name])
        (unc.outputs.foldl (fun g output => g.add unc.name output)
          (unc.inputs.foldl (fun g input => g.add input unc.name) graph))

/-- Second loop of Config::new (lines 164-176): build each node config
through its factory, propagating factory errors. The factories are
abstracted behind the mk parameter. -/
def buildNodeConfigs (mk : UserNodeConfig → Except String Unit) :
    List UserNodeConfig → Except String Unit
  | [] => .ok ()
  | unc :: rest =>
    match mk unc with
    | .ok _ => buildNodeConfigs mk rest
    | .error e => .error e

/-- Config::new (src/datakit-filter/src/config.rs lines 141-190) on an
already-parsed node list (the JSON deserializer is an external
collaborator), with the node factories abstracted. -/
def Config.new (mk : UserNodeConfig → Except String Unit) (nodes : List UserNodeConfig) :
    Except String Config :=
  match configCheck nodes [] ⟨[], []⟩ with
  | .error e => .error e
  | .ok (names, graph) =>
    match buildNodeConfigs mk nodes with
    | .ok _ => .ok ⟨names, graph⟩
    | .error e => .error e

/-- get_config_value (src/datakit-filter/src/config.rs lines 221-233 and
src/datakit-filter/src/nodes.rs lines 195-207): look the key up in the
parameter bag and deserialize it at the expected type, falling back to
the default when the key is absent or deserialization fails. The serde
deserializer at the expected type is abstracted as a partial decoder. -/
def get_config_value {α : Type} (deser : Json → Option α) (bt : List (String × Json))
    (key : String) (default : α) : α :=
  match lookupS bt key with
  | some v =>
    match deser v with
    | some s => s
    | none => default
  | none => default

/-- Action (proxy_wasm::types::Action). -/
inductive Action where
  | Continue : Action
  | Pause : Action
deriving Repr, DecidableEq

/-- Host effects issued by the filter driver when draining implicit
sinks. -/
inductive Effect where
  | setHttpRequestHeaders (headers : List (String × String))
  | setHttpRequestBody (body : Bytes)
  | setHttpResponseHeaders (headers : List (String × String))
  | setHttpResponseHeader (name : String) (value : Option String)
  | setHttpResponseBody (body : Bytes)
deriving Repr

/-- Observation log of node firings: which node ran or resumed, the resume
token delivered by the host, and the state the node returned. -/
inductive LogEntry where
  | ran (name : String) (st : NState)
  | resumed (name : String) (token : Nat) (st : NState)
deriving Repr

/-- Static data of one transaction context (DataKitFilter, src/src/filter.rs
lines 93-106, with tracing disabled): the configured node names in declared
order, the dependency graph, the node behaviors, and the external JSON
codecs. Node run and resume behavior is abstracted as functions of the
node name and its borrowed inputs. -/
structure Sys where
  nodeNames : List String
  graph : DependencyGraph
  runF : String → List (Option Payload) → NState
  resumeF : String → List (Option Payload) → NState
  parse : Bytes → Except String Json
  ser : Json → Except String Bytes

/-- Check for the Waiting constructor, mirroring the if-let on
State::Waiting in run_nodes. -/
def isWaitingB : NState → Bool
  | .waiting _ => true
  | _ => false

/-- Mutable state threaded through the scheduler loop: the data store, the
action to return, and the observation log. -/
structure SchedState where
  data : Data
  act : Action
  log : List LogEntry

/-- Inner pass of the scheduler loop (src/src/filter.rs lines 164-185):
visit node names in declared order, firing each node whose gate is open
with no resume token, and remember whether any node fired. -/
def runPass (sys : Sys) : List String → SchedState → Bool → SchedState × Bool
  | [], s, any_ran => (s, any_ran)
  | name :: rest, s, any_ran =>
    match s.data.get_inputs_for name none with
    | some inputs =>
      let st := sys.runF name inputs
      runPass sys rest
        { data := s.data.set name st,
          act := if isWaitingB st then .Pause else s.act,
          log := s.log ++ [.ran name st] } true
    | none => runPass sys rest s any_ran

/-- Scheduler passes repeated until one fires nothing, with explicit
fuel. -/
def runNodesF (sys : Sys) : Nat → SchedState → SchedState
  | 0, s => s
  | fuel + 1, s =>
    match runPass sys sys.nodeNames s false with
    | (s', true) => runNodesF sys fuel s'
    | (s', false) => s'

/-- DataKitFilter::run_nodes (src/src/filter.rs lines 160-192): run
scheduler passes until quiescent. The fuel provided is always enough for
the loop to exit on a pass with no firings (theorem run_nodes_terminates
makes this precise). -/
def run_nodes (sys : Sys) (d : Data) (log : List LogEntry) : SchedState :=
  runNodesF sys (sys.nodeNames.length + 1) { data := d, act := .Continue, log := log }

/-- Implicit-node connection flag (src/src/filter.rs line 63). -/
def do_request_headers (sys : Sys) : Bool := sys.graph.has_dependents "request_headers"

/-- Implicit-node connection flag (src/src/filter.rs line 64). -/
def do_request_body (sys : Sys) : Bool := sys.graph.has_dependents "request_body"

/-- Implicit-node connection flag (src/src/filter.rs line 65). -/
def do_service_request_headers (sys : Sys) : Bool := sys.graph.has_providers "service_request_headers"

/-- Implicit-node connection flag (src/src/filter.rs line 66). -/
def do_service_request_body (sys : Sys) : Bool := sys.graph.has_providers "service_request_body"

/-- Implicit-node connection flag (src/src/filter.rs line 67). -/
def do_service_response_headers (sys : Sys) : Bool := sys.graph.has_dependents "service_response_headers"

/-- Implicit-node connection flag (src/src/filter.rs line 68). -/
def do_service_response_body (sys : Sys) : Bool := sys.graph.has_dependents "service_response_body"

/-- Implicit-node connection flag (src/src/filter.rs line 69). -/
def do_response_headers (sys : Sys) : Bool := sys.graph.has_providers "response_headers"

/-- Implicit-node connection flag (src/src/filter.rs line 70). -/
def do_response_body (sys : Sys) : Bool := sys.graph.has_providers "response_body"

/-- Result of one phase callback: the new data store, the action returned
to the host, the host effects issued while draining sinks, and the
accumulated firing log. -/
structure HandlerResult where
  data : Data
  act : Action
  effects : List Effect
  log : List LogEntry

/-- DataKitFilter::on_http_request_headers (src/src/filter.rs lines
230-241, tracing disabled): seed the request_headers source if connected,
then run the scheduler. -/
def on_http_request_headers (sys : Sys) (d : Data) (log : List LogEntry)
    (headers : List (String × String)) : HandlerResult :=
  let d1 := if do_request_headers sys then
      d.set "request_headers" (.done (some (from_pwm_headers headers)))
    else d
  let s := run_nodes sys d1 log
  ⟨s.data, s.act, [], s.log⟩

/-- DataKitFilter::on_http_request_body (src/src/filter.rs lines 243-270):
seed the request_body source only at end of stream, run the scheduler,
then drain the service_request_headers and service_request_body sinks
(body serialization errors are silently skipped). -/
def on_http_request_body (sys : Sys) (d : Data) (log : List LogEntry)
    (body : Option Bytes) (content_type : Option String) (eof : Bool) : HandlerResult :=
  let d1 := if eof && do_request_body sys then
      match body with
      | some bytes => d.set "request_body" (.done (Payload.from_bytes sys.parse bytes content_type))
      | none => d
    else d
  let s := run_nodes sys d1 log
  let e1 := if do_service_request_headers sys then
      match s.data.first_input_for "service_request_headers" none with
      | some payload => [Effect.setHttpRequestHeaders (to_pwm_headers (some payload))]
      | none => []
    else []
  let e2 := if do_service_request_body sys then
      match s.data.first_input_for "service_request_body" none with
      | some payload =>
        match payload.to_bytes sys.ser with
        | .ok bytes => [Effect.setHttpRequestBody bytes]
        | .error _ => []
      | none => []
    else []
  ⟨s.data, s.act, e1 ++ e2, s.log⟩

/-- DataKitFilter::on_http_response_headers (src/src/filter.rs lines
272-301, tracing disabled): seed the service_response_headers source if
connected, run the scheduler, then drain the response_headers sink and
pre-set the downstream content headers from the response_body sink. -/
def on_http_response_headers (sys : Sys) (d : Data) (log : List LogEntry)
    (headers : List (String × String)) : HandlerResult :=
  let d1 := if do_service_response_headers sys then
      d.set "service_response_headers" (.done (some (from_pwm_headers headers)))
    else d
  let s := run_nodes sys d1 log
  let e1 := if do_response_headers sys then
      match s.data.first_input_for "response_headers" none with
      | some payload => [Effect.setHttpResponseHeaders (to_pwm_headers (some payload))]
      | none => []
    else []
  let e2 := if do_response_body sys then
      match s.data.first_input_for "response_body" none with
      | some payload =>
        [Effect.setHttpResponseHeader "Content-Length" ((payload.len).map toString),
         Effect.setHttpResponseHeader "Content-Encoding" none,
         Effect.setHttpResponseHeader "Content-Type" payload.content_type]
      | none => []
    else []
  ⟨s.data, s.act, e1 ++ e2, s.log⟩

/-- DataKitFilter::on_http_response_body (src/src/filter.rs lines
303-339, tracing disabled): return Pause immediately before end of
stream; at end of stream seed the service_response_body source, run the
scheduler and drain the response_body sink (a body serialization failure
drains an empty body). -/
def on_http_response_body (sys : Sys) (d : Data) (log : List LogEntry)
    (body : Option Bytes) (content_type : Option String) (eof : Bool) : HandlerResult :=
  if !eof then ⟨d, .Pause, [], log⟩
  else
    let d1 := if do_service_response_body sys then
        match body with
        | some bytes => d.set "service_response_body" (.done (Payload.from_bytes sys.parse bytes content_type))
        | none => d
      else d
    let s := run_nodes sys d1 log
    let e := if do_response_body sys then
        match s.data.first_input_for "response_body" none with
        | some payload =>
          match payload.to_bytes sys.ser with
          | .ok bytes => [Effect.setHttpResponseBody bytes]
          | .error _ => [Effect.setHttpResponseBody []]
        | none => []
      else []
    ⟨s.data, s.act, e, s.log⟩

/-- Resume scan of on_http_call_response (src/src/filter.rs lines
205-221): find the first node in declared order whose gate opens for the
delivered token, deliver the resume, and record its new state. -/
def resumeScan (sys : Sys) (d : Data) (log : List LogEntry) (token : Nat) :
    List String → Data × List LogEntry
  | [] => (d, log)
  | name :: rest =>
    match d.get_inputs_for name (some token) with
    | some inputs =>
      let st := sys.resumeF name inputs
      (d.set name st, log ++ [.resumed name token st])
    | none => resumeScan sys d log token rest

/-- DataKitFilter::on_http_call_response (src/src/filter.rs lines
196-226): resume the matching node, then run the scheduler once more. -/
def on_http_call_response (sys : Sys) (d : Data) (log : List LogEntry) (token : Nat) :
    HandlerResult :=
  let r := resumeScan sys d log token sys.nodeNames
  let s := run_nodes sys r.1 r.2
  ⟨s.data, s.act, [], s.log⟩

/-- Host phase callbacks driving one transaction. -/
inductive Event where
  | requestHeaders (headers : List (String × String))
  | requestBody (body : Option Bytes) (content_type : Option String) (eof : Bool)
  | responseHeaders (headers : List (String × String))
  | responseBody (body : Option Bytes) (content_type : Option String) (eof : Bool)
  | callResponse (token : Nat)

/-- Dispatch of one host callback to its handler. -/
def handleEvent (sys : Sys) (d : Data) (log : List LogEntry) : Event → HandlerResult
  | .requestHeaders hs => on_http_request_headers sys d log hs
  | .requestBody b ct eof => on_http_request_body sys d log b ct eof
  | .responseHeaders hs => on_http_response_headers sys d log hs
  | .responseBody b ct eof => on_http_response_body sys d log b ct eof
  | .callResponse tok => on_http_call_response sys d log tok

/-- One transaction: the host delivers a sequence of phase callbacks, each
of which updates the data store and extends the firing log. -/
def runTxn (sys : Sys) (d : Data) (log : List LogEntry) : List Event → Data × List LogEntry
  | [] => (d, log)
  | e :: rest =>
    let r := handleEvent sys d log e
    runTxn sys r.data r.log rest

/-- Check whether a log entry records a run of the given node. -/
def isRan (n : String) : LogEntry → Bool
  | .ran m _ => m == n
  | _ => false

/-- Check whether a log entry records a resume of the given node. -/
def isResumed (n : String) : LogEntry → Bool
  | .resumed m _ _ => m == n
  | _ => false

/-- Number of run firings of a node recorded in a log. -/
def countRan (n : String) (log : List LogEntry) : Nat := log.countP (isRan n)

/-- Number of resume firings of a node recorded in a log. -/
def countResumed (n : String) (log : List LogEntry) : Nat := log.countP (isResumed n)

/-- Number of distinct configured nodes with no recorded state: the
termination measure of the scheduler loop. -/
def countNone (sys : Sys) (d : Data) : Nat :=
  ((sys.nodeNames.filter (fun n => (d.stateGet n).isNone)).toFinset).card

/-- Quiescence: no configured node can fire without a resume token. -/
def quiescent (sys : Sys) (d : Data) : Prop :=
  ∀ n ∈ sys.nodeNames, d.can_trigger n none = false

/-- Values of the header entries with the given exact name, in order. -/
def valuesFor (n : String) (l : List (String × String)) : List String :=
  (l.filter (fun kv => kv.1 = n)).map (fun kv => kv.2)

/-- Values represented by an optional entry of the header map of
from_pwm_headers. -/
def svValues : Option StringOrVec → List String
  | none => []
  | some (.str s) => [s]
  | some (.vec vs) => vs

/-- Values of the header pairs whose lowercased name is the given name,
in order. -/
def collectVals (n : String) (ps : List (String × String)) : List String :=
  ps.filterMap (fun kv => if kv.1.toLower = n then some kv.2 else none)

/-- Well-formedness of a header payload as the round-trip claim assumes
it: a JSON object whose values are strings or arrays of strings. -/
def HeadersShape (p : Payload) : Prop :=
  ∃ kvs, p = .json (.obj kvs) ∧
    ∀ kv ∈ kvs, (∃ s, kv.2 = Json.str s) ∨
      (∃ xs, kv.2 = Json.arr xs ∧ ∀ x ∈ xs, ∃ s, x = Json.str s)

/-- Firing discipline of one node across a transaction: a node with no
recorded state has never fired; run and resume each fire at most once; a
recorded Waiting(w) state always stems from a run that returned
Waiting(w) and has not been resumed; and every resume in the log is
preceded by the run that returned the matching Waiting token. -/
def ranOnceInv (n : String) (d : Data) (log : List LogEntry) : Prop :=
  (d.stateGet n = none → countRan n log = 0 ∧ countResumed n log = 0) ∧
  countRan n log ≤ 1 ∧
  countResumed n log ≤ 1 ∧
  (∀ w, d.stateGet n = some (.waiting w) →
    LogEntry.ran n (.waiting w) ∈ log ∧ countResumed n log = 0) ∧
  (∀ pre tok st post, log = pre ++ LogEntry.resumed n tok st :: post →
    LogEntry.ran n (.waiting tok) ∈ pre)

/-- Concrete transaction system used by the body-phase counterexample: a
single template-like node t reading request_headers and feeding the
service_request_headers sink. -/
def c3Sys : Sys :=
  { nodeNames := ["t"],
    graph := (DependencyGraph.add ⟨[], []⟩ "request_headers" "t").add "t" "service_request_headers",
    runF := fun _ _ => .done none,
    resumeF := fun _ _ => .done none,
    parse := fun _ => .error "unused",
    ser := fun _ => .ok [] }

/-- Concrete data store of the body-phase counterexample: node t has
already completed with a header payload during the request-headers
phase. -/
def c3Data : Data :=
  { graph := c3Sys.graph,
    states := [("t", .done (some (.json (.obj [("x", .str "y")]))))] }

/-- Concrete transaction system with a call node c feeding a response
node r, used to witness the absorbing behavior of Fail. -/
def c4Sys : Sys :=
  { nodeNames := ["c", "r"],
    graph := DependencyGraph.add ⟨[], []⟩ "c" "r",
    runF := fun _ _ => .done none,
    resumeF := fun _ _ => .done none,
    parse := fun _ => .error "unused",
    ser := fun _ => .ok [] }

/-- Concrete data store in which node c has already failed. -/
def c4Data : Data :=
  { graph := c4Sys.graph,
    states := [("c", .fail (some (.error "boom")))] }

/-- Concrete transaction system with a single call-like node a whose run
suspends on token 5, used to witness the firing discipline. -/
def c5Sys : Sys :=
  { nodeNames := ["a"],
    graph := ⟨[], []⟩,
    runF := fun _ _ => .waiting 5,
    resumeF := fun _ _ => .done none,
    parse := fun _ => .error "unused",
    ser := fun _ => .ok [] }

/-- Concrete transaction system with a dependency cycle between nodes a
and b, used to witness termination of the scheduler loop. -/
def c6Sys : Sys :=
  { nodeNames := ["a", "b"],
    graph := (DependencyGraph.add ⟨[], []⟩ "a" "b").add "b" "a",
    runF := fun _ _ => .done none,
    resumeF := fun _ _ => .done none,
    parse := fun _ => .error "unused",
    ser := fun _ => .ok [] }

theorem get_inputs_for_isSome (d : Data) (name : String) (t : Option Nat) :
    (d.get_inputs_for name t).isSome = d.can_trigger name t := by
  unfold Data.get_inputs_for
  cases h : d.can_trigger name t <;> simp [h]

theorem first_input_for_closed (d : Data) (name : String) (t : Option Nat)
    (h : d.can_trigger name t = false) : d.first_input_for name t = none := by
  unfold Data.first_input_for
  simp [h]

/-- C1: the scheduler gate can_trigger(n, t) returns true iff the recorded
state of n is absent or is Waiting(w) with t = Some(w), and every provider
of n is recorded Done (where Done(None) also satisfies readiness); it is
the gate used by get_inputs_for. -/
theorem can_trigger_correct (d : Data) (n : String) (t : Option Nat) :
    (d.can_trigger n t = true ↔
      ((d.stateGet n = none ∨
        ∃ w, d.stateGet n = some (.waiting w) ∧ t = some w) ∧
       ∀ i ∈ d.graph.each_input n, ∃ p, d.stateGet i = some (.done p))) ∧
    (d.get_inputs_for n t).isSome = d.can_trigger n t := by
  constructor
  · unfold Data.can_trigger
    rw [Bool.and_eq_true, List.all_eq_true]
    constructor
    · rintro ⟨h1, h2⟩
      constructor
      · cases hs : d.stateGet n with
        | none => exact Or.inl rfl
        | some st =>
          cases st with
          | waiting w =>
            rw [hs] at h1
            cases t with
            | none => simp at h1
            | some id =>
              simp at h1
              exact Or.inr ⟨w, rfl, by rw [h1]⟩
          | done p => rw [hs] at h1; simp at h1
          | fail p => rw [hs] at h1; simp at h1
      · intro i hi
        have := h2 i hi
        cases hsi : d.stateGet i with
        | none => rw [hsi] at this; simp at this
        | some st =>
          cases st with
          | waiting w => rw [hsi] at this; simp at this
          | done p => exact ⟨p, rfl⟩
          | fail p => rw [hsi] at this; simp at this
    · rintro ⟨h1, h2⟩
      constructor
      · rcases h1 with h1 | ⟨w, hw, ht⟩
        · rw [h1]
        · rw [hw, ht]; simp
      · intro i hi
        obtain ⟨p, hp⟩ := h2 i hi
        rw [hp]
  · exact get_inputs_for_isSome d n t

/-- C2 counterexample: with a url that fails to parse, Call::run returns
Done(None), not Fail(Some(Error(message))) as the claim states. -/
theorem call_run_bad_url_counterexample :
    Call.run ⟨fun _ => none, fun _ => .error "unused", fun _ _ _ => .error "unused"⟩
      ⟨"no scheme", "GET", 60⟩ [] = .done none ∧
    ¬ ∃ m, Call.run ⟨fun _ => none, fun _ => .error "unused", fun _ _ _ => .error "unused"⟩
      ⟨"no scheme", "GET", 60⟩ [] = .fail (some (.error m)) := by
  constructor
  · rfl
  · rintro ⟨m, hm⟩
    simp [Call.run] at hm

/-- C2 amended: Call::run returns Done(None) when the url fails to parse
or lacks a host; it returns Fail(Some(Error(m))) when the body fails to
serialize or the dispatch fails; it returns Waiting(token) exactly when
the dispatch succeeds with that token. -/
theorem call_run_characterization (env : CallEnv) (config : CallConfig)
    (inputs : List (Option Payload)) :
    (env.urlParse config.url = none → Call.run env config inputs = .done none) ∧
    (∀ u, env.urlParse config.url = some u → u.host = none →
      Call.run env config inputs = .done none) ∧
    (∀ u host e, env.urlParse config.url = some u → u.host = some host →
      to_pwm_body env.ser ((inputs.head?).getD none) = .error e →
      Call.run env config inputs = .fail (some (.error e))) ∧
    (∀ u host b tok, env.urlParse config.url = some u → u.host = some host →
      to_pwm_body env.ser ((inputs.head?).getD none) = .ok b →
      env.dispatch
        (match u.port with
         | some port => host ++ ":" ++ toString port
         | none => host)
        (to_pwm_headers ((inputs[1]?).getD none) ++
          [(":method", config.method), (":path", u.path), (":scheme", u.scheme)]) b = .ok tok →
      Call.run env config inputs = .waiting tok) ∧
    (∀ u host b st, env.urlParse config.url = some u → u.host = some host →
      to_pwm_body env.ser ((inputs.head?).getD none) = .ok b →
      env.dispatch
        (match u.port with
         | some port => host ++ ":" ++ toString port
         | none => host)
        (to_pwm_headers ((inputs[1]?).getD none) ++
          [(":method", config.method), (":path", u.path), (":scheme", u.scheme)]) b = .error st →
      Call.run env config inputs = .fail (some (.error ("error: " ++ st)))) := by
  refine ⟨?_, ?_, ?_, ?_, ?_⟩
  · intro h
    simp [Call.run, h]
  · intro u hu hh
    simp [Call.run, hu, hh]
  · intro u host e hu hh hb
    simp [Call.run, hu, hh, hb]
  · intro u host b tok hu hh hb hd
    simp [Call.run, hu, hh, hb, hd]
  · intro u host b st hu hh hb hd
    simp [Call.run, hu, hh, hb, hd]

/-- Witness for call_run_characterization: a concrete environment where
each hypothesis of the dispatch-success branch is discharged. -/
theorem call_run_characterization_witness :
    Call.run ⟨fun _ => some ⟨"http", some "svc", none, "/echo"⟩,
        fun _ => .error "unused", fun _ _ _ => .ok 7⟩
      ⟨"http://svc/echo", "GET", 60⟩ [] = .waiting 7 :=
  (call_run_characterization _ _ _).2.2.2.1 ⟨"http", some "svc", none, "/echo"⟩
    "svc" none 7 rfl rfl rfl rfl

/-- C8: Jq::run wraps the filter results: zero results give Done(None), a
single result is unwrapped, two or more results are wrapped into an array
in order, and an execution or binding error gives Fail with the collected
messages joined. -/
theorem jq_run_correct (exec : List (Option Payload) → Except (List String) (List Json))
    (inputs : List (Option Payload)) :
    (exec inputs = .ok [] → Jq.run exec inputs = .done none) ∧
    (∀ r, exec inputs = .ok [r] → Jq.run exec inputs = .done (some (.json r))) ∧
    (∀ r1 r2 rs, exec inputs = .ok (r1 :: r2 :: rs) →
      Jq.run exec inputs = .done (some (.json (.arr (r1 :: r2 :: rs))))) ∧
    (∀ e es, exec inputs = .error (e :: es) →
      Jq.run exec inputs = .fail (some (.error (String.intercalate ", " (e :: es))))) := by
  refine ⟨?_, ?_, ?_, ?_⟩
  · intro h
    unfold Jq.run
    rw [h]
  · intro r h
    unfold Jq.run
    rw [h]
  · intro r1 r2 rs h
    unfold Jq.run
    rw [h]
  · intro e es h
    unfold Jq.run
    rw [h]
    simp [errorsToState, String.intercalate]

/-- Witness for jq_run_correct: concrete executions through each shape of
result. -/
theorem jq_run_correct_witness :
    Jq.run (fun _ => .error ["a", "b"]) [] = .fail (some (.error "a, b")) :=
  (jq_run_correct _ _).2.2.2 "a" ["b"] rfl

/-- Lemma: the first loop of Config::new stops with the reserved-name
error of the first offending node. -/
theorem configCheck_reserved (nodes : List UserNodeConfig) :
    ∀ names graph, (∃ unc ∈ nodes, unc.name ∈ reservedNodeNames) →
      ∃ unc ∈ nodes, unc.name ∈ reservedNodeNames ∧
        configCheck nodes names graph =
          .error ("cannot use reserved node name '" ++ unc.name ++ "'") := by
  induction nodes with
  | nil =>
    rintro names graph ⟨unc, h, _⟩
    exact absurd h (List.not_mem_nil unc)
  | cons u rest ih =>
    rintro names graph ⟨unc, hmem, hres⟩
    by_cases hu : u.name ∈ reservedNodeNames
    · refine ⟨u, List.mem_cons_self u rest, hu, ?_⟩
      unfold configCheck
      simp [hu]
    · have hrest : ∃ v ∈ rest, v.name ∈ reservedNodeNames := by
        rcases List.mem_cons.mp hmem with h | h
        · exact absurd (h ▸ hres) hu
        · exact ⟨unc, h, hres⟩
      obtain ⟨v, hv, hvres, heq⟩ := ih _ _ hrest
      refine ⟨v, List.mem_cons_of_mem u hv, hvres, ?_⟩
      unfold configCheck
      simp only [hu, if_false]
      exact heq

/-- C9: a configuration in which some node declares a reserved implicit
name is rejected by Config::new with the message naming the offending
node. -/
theorem config_new_reserved (mk : UserNodeConfig → Except String Unit)
    (nodes : List UserNodeConfig)
    (h : ∃ unc ∈ nodes, unc.name ∈ reservedNodeNames) :
    ∃ unc ∈ nodes, unc.name ∈ reservedNodeNames ∧
      Config.new mk nodes =
        .error ("cannot use reserved node name '" ++ unc.name ++ "'") := by
  obtain ⟨unc, hmem, hres, heq⟩ := configCheck_reserved nodes [] ⟨[], []⟩ h
  refine ⟨unc, hmem, hres, ?_⟩
  unfold Config.new
  rw [heq]

/-- Witness for config_new_reserved: a node named response_body makes
configuration loading fail with the documented message. -/
theorem config_new_reserved_witness :
    ∃ unc ∈ [(⟨"template", "response_body", [], [], []⟩ : UserNodeConfig)],
      unc.name ∈ reservedNodeNames ∧
        Config.new (fun _ => .ok ()) [⟨"template", "response_body", [], [], []⟩] =
          .error ("cannot use reserved node name '" ++ unc.name ++ "'") :=
  config_new_reserved _ _
    ⟨⟨"template", "response_body", [], [], []⟩, List.mem_singleton.mpr rfl,
      by simp [reservedNodeNames]⟩

/-- C10: get_config_value falls back to the default both when the key is
absent from the parameter bag and when the present value fails to
deserialize at the expected type. -/
theorem get_config_value_default {α : Type} (deser : Json → Option α)
    (bt : List (String × Json)) (key : String) (default : α) :
    (lookupS bt key = none → get_config_value deser bt key default = default) ∧
    (∀ v, lookupS bt key = some v → deser v = none →
      get_config_value deser bt key default = default) := by
  constructor
  · intro h
    simp [get_config_value, h]
  · intro v hv hd
    simp [get_config_value, hv, hd]

/-- Witness for get_config_value_default: a non-numeric timeout on a Call
node parameter bag is silently replaced by the default 60. -/
theorem get_config_value_default_witness :
    get_config_value
      (fun j => match j with | .num n => some n | _ => none)
      [("timeout", Json.str "soon")] "timeout" 60 = 60 :=
  (get_config_value_default _ _ _ _).2 (Json.str "soon") rfl rfl

theorem lookupS_insertSorted_self {α : Type} (k : String) (v : α)
    (m : List (String × α)) : lookupS (insertSorted k v m) k = some v := by
  induction m with
  | nil => simp [insertSorted, lookupS]
  | cons hd t ih =>
    obtain ⟨k', v'⟩ := hd
    unfold insertSorted
    by_cases h1 : k < k'
    · simp [h1, lookupS]
    · by_cases h2 : k = k'
      · simp [h1, h2, lookupS]
      · have hne : k' ≠ k := fun h => h2 h.symm
        simp [h1, h2, lookupS, hne]
        exact ih

theorem lookupS_insertSorted_ne {α : Type} (k : String) (v : α)
    (m : List (String × α)) (n : String) (hne : n ≠ k) :
    lookupS (insertSorted k v m) n = lookupS m n := by
  have hkn : ¬(k = n) := fun h => hne h.symm
  induction m with
  | nil => simp [insertSorted, lookupS, hkn]
  | cons hd t ih =>
    obtain ⟨k', v'⟩ := hd
    unfold insertSorted
    by_cases h1 : k < k'
    · simp [h1, lookupS, hkn]
    · by_cases h2 : k = k'
      · subst h2
        simp [h1, lookupS, hkn]
      · rw [if_neg h1, if_neg h2]
        by_cases h3 : k' = n
        · simp [lookupS, h3]
        · simp [lookupS, h3]
          exact ih

theorem mem_insertSorted {α : Type} (k : String) (v : α)
    (m : List (String × α)) (x : String × α) (hx : x ∈ insertSorted k v m) :
    x = (k, v) ∨ x ∈ m := by
  induction m with
  | nil =>
    simp [insertSorted] at hx
    exact Or.inl hx
  | cons hd t ih =>
    obtain ⟨k', v'⟩ := hd
    unfold insertSorted at hx
    by_cases h1 : k < k'
    · rw [if_pos h1] at hx
      rcases List.mem_cons.mp hx with h | h
      · exact Or.inl h
      · exact Or.inr h
    · by_cases h2 : k = k'
      · rw [if_neg h1, if_pos h2] at hx
        rcases List.mem_cons.mp hx with h | h
        · exact Or.inl h
        · exact Or.inr (List.mem_cons_of_mem _ h)
      · rw [if_neg h1, if_neg h2] at hx
        rcases List.mem_cons.mp hx with h | h
        · exact Or.inr (h ▸ List.mem_cons_self _ _)
        · rcases ih h with h' | h'
          · exact Or.inl h'
          · exact Or.inr (List.mem_cons_of_mem _ h')

theorem pairwise_insertSorted {α : Type} (k : String) (v : α)
    (m : List (String × α)) (hm : List.Pairwise (fun a b => a.1 < b.1) m) :
    List.Pairwise (fun a b => a.1 < b.1) (insertSorted k v m) := by
  induction m with
  | nil => simp [insertSorted]
  | cons hd t ih =>
    obtain ⟨k', v'⟩ := hd
    rw [List.pairwise_cons] at hm
    obtain ⟨h1, h2⟩ := hm
    unfold insertSorted
    by_cases hlt : k < k'
    · rw [if_pos hlt]
      rw [List.pairwise_cons]
      refine ⟨?_, List.pairwise_cons.mpr ⟨h1, h2⟩⟩
      intro x hx
      rcases List.mem_cons.mp hx with h | h
      · rw [h]; exact hlt
      · exact lt_trans hlt (h1 x h)
    · by_cases heq : k = k'
      · rw [if_neg hlt, if_pos heq]
        rw [List.pairwise_cons]
        refine ⟨?_, h2⟩
        intro x hx
        rw [heq]
        exact h1 x hx
      · rw [if_neg hlt, if_neg heq]
        rw [List.pairwise_cons]
        refine ⟨?_, ih h2⟩
        intro x hx
        have hk'k : k' < k := lt_of_le_of_ne (not_lt.mp hlt) (fun h => heq h.symm)
        rcases mem_insertSorted k v t x hx with h | h
        · rw [h]; exact hk'k
        · exact h1 x h

theorem collectVals_cons (n : String) (kv : String × String)
    (ps : List (String × String)) :
    collectVals n (kv :: ps) =
      (if kv.1.toLower = n then [kv.2] else []) ++ collectVals n ps := by
  unfold collectVals
  rw [List.filterMap_cons]
  by_cases h : kv.1.toLower = n
  · simp [h]
  · simp [h]

theorem fromPwmStep_pairwise (m : List (String × StringOrVec))
    (kv : String × String) (hm : List.Pairwise (fun a b => a.1 < b.1) m) :
    List.Pairwise (fun a b => a.1 < b.1) (fromPwmStep m kv) := by
  unfold fromPwmStep
  cases h : lookupS m kv.1.toLower with
  | none => exact pairwise_insertSorted _ _ _ hm
  | some sv =>
    cases sv with
    | str s => exact pairwise_insertSorted _ _ _ hm
    | vec vs => exact pairwise_insertSorted _ _ _ hm

theorem fromPwmStep_values (m : List (String × StringOrVec))
    (kv : String × String) (q : String) :
    svValues (lookupS (fromPwmStep m kv) q) =
      svValues (lookupS m q) ++ (if kv.1.toLower = q then [kv.2] else []) := by
  unfold fromPwmStep
  by_cases hq : kv.1.toLower = q
  · cases h : lookupS m kv.1.toLower with
    | none =>
      rw [← hq, lookupS_insertSorted_self, h]
      simp [svValues]
    | some sv =>
      cases sv with
      | str s =>
        rw [← hq, lookupS_insertSorted_self, h]
        simp [svValues]
      | vec vs =>
        rw [← hq, lookupS_insertSorted_self, h]
        simp [svValues]
  · have hqk : q ≠ kv.1.toLower := fun h => hq h.symm
    cases h : lookupS m kv.1.toLower with
    | none => rw [lookupS_insertSorted_ne _ _ _ _ hqk, if_neg hq]; simp
    | some sv =>
      cases sv with
      | str s => rw [lookupS_insertSorted_ne _ _ _ _ hqk, if_neg hq]; simp
      | vec vs => rw [lookupS_insertSorted_ne _ _ _ _ hqk, if_neg hq]; simp

theorem fromPwm_fold_spec (ps : List (String × String)) :
    ∀ m, List.Pairwise (fun a b => a.1 < b.1) m →
      List.Pairwise (fun a b => a.1 < b.1) (ps.foldl fromPwmStep m) ∧
      ∀ q, svValues (lookupS (ps.foldl fromPwmStep m) q) =
        svValues (lookupS m q) ++ collectVals q ps := by
  induction ps with
  | nil =>
    intro m hm
    refine ⟨hm, ?_⟩
    intro q
    simp [collectVals]
  | cons kv rest ih =>
    intro m hm
    have hm' := fromPwmStep_pairwise m kv hm
    obtain ⟨hs, hv⟩ := ih (fromPwmStep m kv) hm'
    rw [List.foldl_cons]
    refine ⟨hs, ?_⟩
    intro q
    rw [hv q, fromPwmStep_values, collectVals_cons, List.append_assoc]

theorem to_pwm_foldl_aux (kvs : List (String × Json)) :
    ∀ acc, kvs.foldl (fun acc kv => acc ++ headerPairsOfEntry kv) acc =
      acc ++ kvs.foldr (fun kv r => headerPairsOfEntry kv ++ r) [] := by
  induction kvs with
  | nil => intro acc; simp
  | cons kv rest ih =>
    intro acc
    rw [List.foldl_cons, List.foldr_cons, ih, List.append_assoc]

theorem to_pwm_obj (kvs : List (String × Json)) :
    Payload.to_pwm_headers (.json (.obj kvs)) =
      kvs.foldr (fun kv r => headerPairsOfEntry kv ++ r) [] := by
  rw [show Payload.to_pwm_headers (.json (.obj kvs)) =
    kvs.foldl (fun acc kv => acc ++ headerPairsOfEntry kv) [] from rfl]
  rw [to_pwm_foldl_aux]
  simp

theorem valuesFor_append (n : String) (l1 l2 : List (String × String)) :
    valuesFor n (l1 ++ l2) = valuesFor n l1 ++ valuesFor n l2 := by
  unfold valuesFor
  rw [List.filter_append, List.map_append]

theorem filterMap_str_pairs (k : String) (vs : List String) :
    (vs.map Json.str).filterMap (fun x =>
      match x with
      | Json.str s => some (k, s)
      | _ => none) = vs.map (fun s => (k, s)) := by
  induction vs with
  | nil => rfl
  | cons v t ih =>
    rw [List.map_cons, List.filterMap_cons]
    simp only [List.map_cons, ← ih]

theorem headerPairsOfEntry_toJson (k : String) (sv : StringOrVec) :
    headerPairsOfEntry (k, sv.toJson) = (svValues (some sv)).map (fun s => (k, s)) := by
  cases sv with
  | str s => rfl
  | vec vs => exact filterMap_str_pairs k vs

theorem valuesFor_mapped (n k : String) (vals : List String) :
    valuesFor n (vals.map (fun s => (k, s))) = if k = n then vals else [] := by
  by_cases h : k = n
  · simp [valuesFor, h, List.filter_map, Function.comp]
  · simp [valuesFor, h]

theorem valuesFor_rendered (n : String) (m : List (String × StringOrVec))
    (hm : List.Pairwise (fun a b => a.1 < b.1) m) :
    valuesFor n
      ((m.map (fun kv => (kv.1, kv.2.toJson))).foldr
        (fun kv r => headerPairsOfEntry kv ++ r) []) =
      svValues (lookupS m n) := by
  induction m with
  | nil => simp [valuesFor, lookupS, svValues]
  | cons hd t ih =>
    obtain ⟨k, sv⟩ := hd
    rw [List.pairwise_cons] at hm
    obtain ⟨h1, h2⟩ := hm
    rw [List.map_cons, List.foldr_cons, valuesFor_append, headerPairsOfEntry_toJson,
      valuesFor_mapped, ih h2]
    by_cases hk : k = n
    · subst hk
      simp only [if_true, lookupS, if_pos rfl]
      have ht : lookupS t k = none := by
        clear ih
        induction t with
        | nil => simp [lookupS]
        | cons x xs ihx =>
          have hx1 : k < x.1 := h1 x (List.mem_cons_self x xs)
          have hxne : ¬(x.1 = k) := fun h => absurd (h ▸ hx1) (lt_irrefl _)
          rw [show lookupS (x :: xs) k = if x.1 = k then some x.2 else lookupS xs k from rfl]
          rw [if_neg hxne]
          exact ihx (fun y hy => h1 y (List.mem_cons_of_mem x hy)) (by
            rw [List.pairwise_cons] at h2
            exact h2.2)
      rw [ht]
      simp [svValues]
    · simp only [hk, if_false, List.nil_append]
      have : lookupS ((k, sv) :: t) n = lookupS t n := by
        rw [show lookupS ((k, sv) :: t) n = if k = n then some sv else lookupS t n from rfl]
        rw [if_neg hk]
      rw [this]

theorem valuesFor_lowered (n : String) (ps : List (String × String)) :
    valuesFor n (ps.map (fun kv => (kv.1.toLower, kv.2))) = collectVals n ps := by
  induction ps with
  | nil => simp [valuesFor, collectVals]
  | cons kv t ih =>
    rw [List.map_cons, collectVals_cons]
    by_cases h : kv.1.toLower = n
    · simp [valuesFor, h] at ih ⊢
      exact ih
    · simp [valuesFor, h] at ih ⊢
      exact ih

/-- C7: converting a JSON object of strings and string arrays to header
pairs and back preserves the header entries up to lowercasing of names:
for every name, the list of its values (in order) after the round trip
equals the list of its values among the original pairs with names
lowercased. -/
theorem header_round_trip (p : Payload) (_hshape : HeadersShape p) (n : String) :
    valuesFor n (Payload.to_pwm_headers (from_pwm_headers (Payload.to_pwm_headers p))) =
      valuesFor n ((Payload.to_pwm_headers p).map (fun kv => (kv.1.toLower, kv.2))) := by
  set ps := Payload.to_pwm_headers p
  obtain ⟨hpair, hvals⟩ := fromPwm_fold_spec ps [] (List.Pairwise.nil)
  rw [from_pwm_headers, to_pwm_obj, valuesFor_rendered n _ hpair, hvals n,
    valuesFor_lowered]
  simp [lookupS, svValues]

/-- Witness for header_round_trip: a concrete object with a string entry
and an array entry satisfies the shape hypothesis. -/
theorem header_round_trip_witness :
    valuesFor "host"
      (Payload.to_pwm_headers (from_pwm_headers (Payload.to_pwm_headers
        (.json (.obj [("Host", .str "example.com"),
                      ("X-Tag", .arr [.str "a", .str "b"])]))))) =
      valuesFor "host"
        ((Payload.to_pwm_headers
          (.json (.obj [("Host", .str "example.com"),
                        ("X-Tag", .arr [.str "a", .str "b"])]))).map
          (fun kv => (kv.1.toLower, kv.2))) :=
  header_round_trip _
    ⟨[("Host", .str "example.com"), ("X-Tag", .arr [.str "a", .str "b"])], rfl, by
      intro kv hkv
      rcases List.mem_cons.mp hkv with h | h
      · exact Or.inl ⟨"example.com", by rw [h]⟩
      · rcases List.mem_cons.mp h with h' | h'
        · refine Or.inr ⟨[.str "a", .str "b"], by rw [h'], ?_⟩
          intro x hx
          rcases List.mem_cons.mp hx with hx' | hx'
          · exact ⟨"a", hx'⟩
          · rcases List.mem_cons.mp hx' with hx'' | hx''
            · exact ⟨"b", hx''⟩
            · exact absurd hx'' (List.not_mem_nil x)
        · exact absurd h' (List.not_mem_nil kv)⟩
    "host"

theorem lookupS_upsert_self {α : Type} (l : List (String × α)) (k : String) (v : α) :
    lookupS (upsert l k v) k = some v := by
  induction l with
  | nil => simp [upsert, lookupS]
  | cons hd t ih =>
    obtain ⟨k', v'⟩ := hd
    unfold upsert
    by_cases h : k' = k
    · rw [if_pos h]
      simp [lookupS]
    · rw [if_neg h]
      simp only [lookupS, h, if_false]
      exact ih

theorem lookupS_upsert_ne {α : Type} (l : List (String × α)) (k : String) (v : α)
    (m : String) (h : m ≠ k) : lookupS (upsert l k v) m = lookupS l m := by
  have hkm : ¬(k = m) := fun hh => h hh.symm
  induction l with
  | nil => simp [upsert, lookupS, hkm]
  | cons hd t ih =>
    obtain ⟨k', v'⟩ := hd
    unfold upsert
    by_cases hk : k' = k
    · rw [if_pos hk]
      subst hk
      simp only [lookupS, hkm, if_false]
    · rw [if_neg hk]
      simp only [lookupS]
      by_cases hm : k' = m
      · rw [if_pos hm, if_pos hm]
      · rw [if_neg hm, if_neg hm]
        exact ih

theorem stateGet_set_self (d : Data) (n : String) (st : NState) :
    (d.set n st).stateGet n = some st :=
  lookupS_upsert_self d.states n st

theorem stateGet_set_ne (d : Data) (n : String) (st : NState) (m : String)
    (h : m ≠ n) : (d.set n st).stateGet m = d.stateGet m :=
  lookupS_upsert_ne d.states n st m h

theorem set_graph (d : Data) (n : String) (st : NState) :
    (d.set n st).graph = d.graph := rfl

theorem can_trigger_none_state (d : Data) (n : String)
    (h : d.can_trigger n none = true) : d.stateGet n = none := by
  unfold Data.can_trigger at h
  rw [Bool.and_eq_true] at h
  obtain ⟨h1, _⟩ := h
  cases hs : d.stateGet n with
  | none => rfl
  | some st =>
    cases st with
    | waiting w => rw [hs] at h1; simp at h1
    | done p => rw [hs] at h1; simp at h1
    | fail p => rw [hs] at h1; simp at h1

theorem can_trigger_fail_input (d : Data) (m n : String) (p : Option Payload)
    (t : Option Nat) (hdep : n ∈ d.graph.each_input m)
    (hf : d.stateGet n = some (.fail p)) : d.can_trigger m t = false := by
  unfold Data.can_trigger
  have hall : ((d.graph.each_input m).all (fun i =>
      match d.stateGet i with
      | some (.done _) => true
      | _ => false)) = false := by
    cases hb : ((d.graph.each_input m).all (fun i =>
        match d.stateGet i with
        | some (.done _) => true
        | _ => false)) with
    | false => rfl
    | true =>
      have := List.all_eq_true.mp hb n hdep
      rw [hf] at this
      simp at this
  rw [hall, Bool.and_false]

theorem get_inputs_some_trigger (d : Data) (n : String) (t : Option Nat)
    (inputs : List (Option Payload)) (h : d.get_inputs_for n t = some inputs) :
    d.can_trigger n t = true := by
  have hs := get_inputs_for_isSome d n t
  rw [h] at hs
  exact hs.symm

theorem runPass_graph (sys : Sys) (names : List String) : ∀ s any,
    ((runPass sys names s any).1).data.graph = s.data.graph := by
  induction names with
  | nil => intro s any; rfl
  | cons name rest ih =>
    intro s any
    unfold runPass
    cases hg : s.data.get_inputs_for name none with
    | some inputs => exact ih _ true
    | none => exact ih s any

theorem runPass_preserves_some (sys : Sys) (names : List String) : ∀ s any m,
    s.data.stateGet m ≠ none →
    ((runPass sys names s any).1).data.stateGet m ≠ none := by
  induction names with
  | nil => intro s any m h; exact h
  | cons name rest ih =>
    intro s any m h
    unfold runPass
    cases hg : s.data.get_inputs_for name none with
    | some inputs =>
      apply ih _ true m
      by_cases hm : m = name
      · subst hm
        rw [show (s.data.set m (sys.runF m inputs)).stateGet m = some (sys.runF m inputs) from
          stateGet_set_self _ _ _]
        simp
      · rw [stateGet_set_ne _ _ _ _ hm]
        exact h
    | none => exact ih s any m h

theorem runPass_flag (sys : Sys) (names : List String) : ∀ s,
    (runPass sys names s true).2 = true := by
  induction names with
  | nil => intro s; rfl
  | cons name rest ih =>
    intro s
    unfold runPass
    cases hg : s.data.get_inputs_for name none with
    | some inputs => exact ih _
    | none => exact ih s

theorem runPass_false (sys : Sys) (names : List String) : ∀ s,
    (runPass sys names s false).2 = false →
    (runPass sys names s false).1 = s ∧
      ∀ nm ∈ names, s.data.can_trigger nm none = false := by
  induction names with
  | nil =>
    intro s _
    exact ⟨rfl, fun nm h => absurd h (List.not_mem_nil nm)⟩
  | cons name rest ih =>
    intro s h
    unfold runPass at h ⊢
    cases hg : s.data.get_inputs_for name none with
    | some inputs =>
      rw [hg] at h
      have := runPass_flag sys rest
        { data := s.data.set name (sys.runF name inputs),
          act := if isWaitingB (sys.runF name inputs) then .Pause else s.act,
          log := s.log ++ [.ran name (sys.runF name inputs)] }
      rw [this] at h
      exact absurd h (by simp)
    | none =>
      rw [hg] at h
      obtain ⟨h1, h2⟩ := ih s h
      refine ⟨h1, ?_⟩
      intro nm hm
      rcases List.mem_cons.mp hm with rfl | hm'
      · have hs := get_inputs_for_isSome s.data nm none
        rw [hg] at hs
        exact hs.symm
      · exact h2 nm hm'

theorem countNone_set_le (sys : Sys) (d : Data) (n : String) (st : NState) :
    countNone sys (d.set n st) ≤ countNone sys d := by
  unfold countNone
  apply Finset.card_le_card
  intro x hx
  rw [List.mem_toFinset, List.mem_filter] at hx ⊢
  obtain ⟨hmem, hnone⟩ := hx
  refine ⟨hmem, ?_⟩
  by_cases hxn : x = n
  · subst hxn
    rw [stateGet_set_self] at hnone
    simp at hnone
  · rw [stateGet_set_ne _ _ _ _ hxn] at hnone
    exact hnone

theorem countNone_set_lt (sys : Sys) (d : Data) (n : String) (st : NState)
    (hn : n ∈ sys.nodeNames) (hnone : d.stateGet n = none) :
    countNone sys (d.set n st) < countNone sys d := by
  unfold countNone
  apply Finset.card_lt_card
  have hsub : ((sys.nodeNames.filter (fun m => ((d.set n st).stateGet m).isNone)).toFinset) ⊆
      ((sys.nodeNames.filter (fun m => (d.stateGet m).isNone)).toFinset) := by
    intro x hx
    rw [List.mem_toFinset, List.mem_filter] at hx ⊢
    obtain ⟨hmem, hnone'⟩ := hx
    refine ⟨hmem, ?_⟩
    by_cases hxn : x = n
    · subst hxn
      rw [stateGet_set_self] at hnone'
      simp at hnone'
    · rw [stateGet_set_ne _ _ _ _ hxn] at hnone'
      exact hnone'
  rw [Finset.ssubset_iff_of_subset hsub]
  refine ⟨n, ?_, ?_⟩
  · rw [List.mem_toFinset, List.mem_filter]
    exact ⟨hn, by rw [hnone]; rfl⟩
  · rw [List.mem_toFinset, List.mem_filter]
    rintro ⟨_, hcontra⟩
    rw [stateGet_set_self] at hcontra
    simp at hcontra

theorem countNone_le_length (sys : Sys) (d : Data) :
    countNone sys d ≤ sys.nodeNames.length :=
  le_trans (List.toFinset_card_le _) (List.length_filter_le _ _)

theorem runPass_measure (sys : Sys) (names : List String)
    (hsub : ∀ x ∈ names, x ∈ sys.nodeNames) : ∀ s any,
    countNone sys ((runPass sys names s any).1).data ≤ countNone sys s.data ∧
    ((runPass sys names s any).2 = true → any = true ∨
      countNone sys ((runPass sys names s any).1).data < countNone sys s.data) := by
  induction names with
  | nil =>
    intro s any
    exact ⟨le_refl _, fun h => Or.inl h⟩
  | cons name rest ih =>
    intro s any
    have hsub' : ∀ x ∈ rest, x ∈ sys.nodeNames :=
      fun x hx => hsub x (List.mem_cons_of_mem _ hx)
    unfold runPass
    cases hg : s.data.get_inputs_for name none with
    | some inputs =>
      have hnone : s.data.stateGet name = none :=
        can_trigger_none_state _ _ (get_inputs_some_trigger _ _ _ _ hg)
      have hlt : countNone sys (s.data.set name (sys.runF name inputs)) < countNone sys s.data :=
        countNone_set_lt sys s.data name _ (hsub name (List.mem_cons_self _ _)) hnone
      obtain ⟨ihle, _⟩ := ih hsub'
        { data := s.data.set name (sys.runF name inputs),
          act := if isWaitingB (sys.runF name inputs) then .Pause else s.act,
          log := s.log ++ [.ran name (sys.runF name inputs)] } true
      exact ⟨le_of_lt (lt_of_le_of_lt ihle hlt), fun _ => Or.inr (lt_of_le_of_lt ihle hlt)⟩
    | none => exact ih hsub' s any

theorem runNodesF_quiescent (sys : Sys) : ∀ fuel s, countNone sys s.data < fuel →
    ∀ n ∈ sys.nodeNames, ((runNodesF sys fuel s).data).can_trigger n none = false := by
  intro fuel
  induction fuel with
  | zero => intro s h; exact absurd h (Nat.not_lt_zero _)
  | succ f ih =>
    intro s hs n hn
    unfold runNodesF
    cases hrp : runPass sys sys.nodeNames s false with
    | mk s' b =>
      cases b with
      | true =>
        have hm := runPass_measure sys sys.nodeNames (fun x hx => hx) s false
        rw [hrp] at hm
        rcases hm.2 rfl with h | h
        · simp at h
        · exact ih s' (lt_of_lt_of_le h (Nat.lt_succ_iff.mp hs)) n hn
      | false =>
        have hfls : (runPass sys sys.nodeNames s false).2 = false := by rw [hrp]
        obtain ⟨heq, hclosed⟩ := runPass_false sys sys.nodeNames s hfls
        rw [hrp] at heq
        simp only at heq
        rw [heq]
        exact hclosed n hn

theorem runNodesF_fuel_indep (sys : Sys) : ∀ fuel s fuel',
    countNone sys s.data < fuel → fuel ≤ fuel' →
    runNodesF sys fuel' s = runNodesF sys fuel s := by
  intro fuel
  induction fuel with
  | zero => intro s fuel' h _; exact absurd h (Nat.not_lt_zero _)
  | succ f ih =>
    intro s fuel' hs hle
    cases fuel' with
    | zero => exact absurd hle (by simp)
    | succ f' =>
      unfold runNodesF
      cases hrp : runPass sys sys.nodeNames s false with
      | mk s' b =>
        cases b with
        | true =>
          have hm := runPass_measure sys sys.nodeNames (fun x hx => hx) s false
          rw [hrp] at hm
          rcases hm.2 rfl with h | h
          · simp at h
          · exact ih s' f' (lt_of_lt_of_le h (Nat.lt_succ_iff.mp hs))
              (Nat.succ_le_succ_iff.mp hle)
        | false => rfl

theorem run_nodes_quiescent (sys : Sys) (d : Data) (log : List LogEntry) :
    quiescent sys (run_nodes sys d log).data := by
  intro n hn
  exact runNodesF_quiescent sys (sys.nodeNames.length + 1) _
    (Nat.lt_succ_of_le (countNone_le_length sys d)) n hn

theorem runPass_count (sys : Sys) (names : List String) (n : String) : ∀ s any,
    countRan n s.log ≤ 1 → (countRan n s.log = 1 → s.data.stateGet n ≠ none) →
    countRan n ((runPass sys names s any).1).log ≤ 1 ∧
    (countRan n ((runPass sys names s any).1).log = 1 →
      ((runPass sys names s any).1).data.stateGet n ≠ none) := by
  induction names with
  | nil => intro s any h1 h2; exact ⟨h1, h2⟩
  | cons name rest ih =>
    intro s any h1 h2
    unfold runPass
    cases hg : s.data.get_inputs_for name none with
    | some inputs =>
      apply ih
      · by_cases hn : name = n
        · subst hn
          have hnone : s.data.stateGet name = none :=
            can_trigger_none_state _ _ (get_inputs_some_trigger _ _ _ _ hg)
          have hz : countRan name s.log = 0 := by
            rcases Nat.lt_or_ge (countRan name s.log) 1 with h | h
            · exact Nat.lt_one_iff.mp h
            · exact absurd hnone (h2 (le_antisymm h1 h))
          have hstep : countRan name (s.log ++ [.ran name (sys.runF name inputs)]) =
              countRan name s.log + 1 := by
            simp [countRan, List.countP_append, List.countP_cons, isRan]
          rw [hstep, hz]
        · have : countRan n (s.log ++ [.ran name (sys.runF name inputs)]) = countRan n s.log := by
            simp [countRan, List.countP_append, List.countP_cons, isRan, hn]
          rw [this]
          exact h1
      · by_cases hn : name = n
        · subst hn
          intro _
          rw [stateGet_set_self]
          simp
        · intro hcnt
          have : countRan n (s.log ++ [.ran name (sys.runF name inputs)]) = countRan n s.log := by
            simp [countRan, List.countP_append, List.countP_cons, isRan, hn]
          rw [this] at hcnt
          rw [stateGet_set_ne _ _ _ _ (fun hh => hn hh.symm)]
          exact h2 hcnt
    | none => exact ih s any h1 h2

theorem runNodesF_count (sys : Sys) (n : String) : ∀ fuel s,
    countRan n s.log ≤ 1 → (countRan n s.log = 1 → s.data.stateGet n ≠ none) →
    countRan n ((runNodesF sys fuel s).log) ≤ 1 := by
  intro fuel
  induction fuel with
  | zero => intro s h1 _; exact h1
  | succ f ih =>
    intro s h1 h2
    unfold runNodesF
    cases hrp : runPass sys sys.nodeNames s false with
    | mk s' b =>
      have hc := runPass_count sys sys.nodeNames n s false h1 h2
      rw [hrp] at hc
      cases b with
      | true => exact ih s' hc.1 hc.2
      | false => exact hc.1

/-- C6: the scheduler loop terminates on every dependency graph, cyclic
ones included, and every starting data store: providing any fuel beyond
the number of configured nodes does not change the result, the loop exits
quiescent (a final pass in which no gate is open), and each node fires at
most once per invocation. -/
theorem run_nodes_terminates (sys : Sys) (d : Data) (fuel : Nat)
    (hfuel : sys.nodeNames.length + 1 ≤ fuel) :
    runNodesF sys fuel ⟨d, .Continue, []⟩ = run_nodes sys d [] ∧
    (∀ n ∈ sys.nodeNames, ((run_nodes sys d []).data).can_trigger n none = false) ∧
    ∀ n, countRan n ((run_nodes sys d []).log) ≤ 1 := by
  have hm : countNone sys d < sys.nodeNames.length + 1 :=
    Nat.lt_succ_of_le (countNone_le_length sys d)
  refine ⟨?_, ?_, ?_⟩
  · exact runNodesF_fuel_indep sys (sys.nodeNames.length + 1) ⟨d, .Continue, []⟩ fuel hm hfuel
  · intro n hn
    exact runNodesF_quiescent sys _ _ hm n hn
  · intro n
    exact runNodesF_count sys n _ ⟨d, .Continue, []⟩ (by simp [countRan])
      (by intro h; simp [countRan, List.countP_nil] at h)

/-- Witness for run_nodes_terminates on the cyclic two-node system. -/
theorem run_nodes_terminates_witness :
    runNodesF c6Sys 3 ⟨Data.new c6Sys.graph, .Continue, []⟩ =
      run_nodes c6Sys (Data.new c6Sys.graph) [] ∧
    (∀ n ∈ c6Sys.nodeNames,
      ((run_nodes c6Sys (Data.new c6Sys.graph) []).data).can_trigger n none = false) ∧
    ∀ n, countRan n ((run_nodes c6Sys (Data.new c6Sys.graph) []).log) ≤ 1 :=
  run_nodes_terminates c6Sys (Data.new c6Sys.graph) 3 (by decide)

/-- C3 counterexample: on_http_request_body invoked with eof = false does
not return Pause and does drain an implicit sink: with node t already
Done with a header payload feeding service_request_headers, the callback
returns Continue and sets the upstream request headers. -/
theorem body_eof_false_counterexample :
    (on_http_request_body c3Sys c3Data [] none none false).act = Action.Continue ∧
    (on_http_request_body c3Sys c3Data [] none none false).effects =
      [Effect.setHttpRequestHeaders [("x", "y")]] ∧
    Action.Continue ≠ Action.Pause := by
  refine ⟨rfl, rfl, by decide⟩

/-- C3 amended: on_http_response_body with eof = false returns Pause and
leaves the data store and the host untouched; on_http_request_body with
eof = false skips only the seeding of request_body (it behaves exactly as
the end-of-stream callback with no available body: the scheduler still
runs, the service_request sinks are still drained, and the action of the
scheduler is returned). -/
theorem body_phase_eof_false_behavior (sys : Sys) (d : Data) (log : List LogEntry)
    (body : Option Bytes) (ct : Option String) :
    on_http_response_body sys d log body ct false = ⟨d, .Pause, [], log⟩ ∧
    on_http_request_body sys d log body ct false =
      on_http_request_body sys d log none ct true := by
  constructor
  · rfl
  · unfold on_http_request_body
    cases h : do_request_body sys with
    | false => simp [h]
    | true => simp [h]

theorem ne_of_not_reserved (n : String) (hn : n ∉ reservedNodeNames) (m : String)
    (hm : m ∈ reservedNodeNames) : n ≠ m :=
  fun h => hn (h ▸ hm)

theorem countRan_append_ran_other (m name : String) (st : NState)
    (l : List LogEntry) (h : name ≠ m) :
    countRan m (l ++ [.ran name st]) = countRan m l := by
  simp [countRan, List.countP_append, List.countP_cons, isRan, h]

theorem countResumed_append_ran (m name : String) (st : NState) (l : List LogEntry) :
    countResumed m (l ++ [.ran name st]) = countResumed m l := by
  simp [countResumed, List.countP_append, List.countP_cons, isResumed]

theorem countRan_append_resumed (m name : String) (tok : Nat) (st : NState)
    (l : List LogEntry) :
    countRan m (l ++ [.resumed name tok st]) = countRan m l := by
  simp [countRan, List.countP_append, List.countP_cons, isRan]

theorem countResumed_append_resumed_other (m name : String) (tok : Nat) (st : NState)
    (l : List LogEntry) (h : name ≠ m) :
    countResumed m (l ++ [.resumed name tok st]) = countResumed m l := by
  simp [countResumed, List.countP_append, List.countP_cons, isResumed, h]

theorem can_trigger_fail_self (d : Data) (n : String) (p : Option Payload)
    (t : Option Nat) (hf : d.stateGet n = some (.fail p)) :
    d.can_trigger n t = false := by
  unfold Data.can_trigger
  rw [hf]
  simp

theorem runPass_fail (sys : Sys) (names : List String) (n : String) (p : Option Payload) :
    ∀ s any, s.data.stateGet n = some (.fail p) →
    (((runPass sys names s any).1).data.stateGet n = some (.fail p)) ∧
    ∀ m, n ∈ s.data.graph.each_input m →
      countRan m ((runPass sys names s any).1).log = countRan m s.log ∧
      countResumed m ((runPass sys names s any).1).log = countResumed m s.log := by
  induction names with
  | nil =>
    intro s any hf
    exact ⟨hf, fun m _ => ⟨rfl, rfl⟩⟩
  | cons name rest ih =>
    intro s any hf
    unfold runPass
    cases hg : s.data.get_inputs_for name none with
    | some inputs =>
      have hct : s.data.can_trigger name none = true := get_inputs_some_trigger _ _ _ _ hg
      have hname_n : n ≠ name := by
        intro h
        rw [← h] at hct
        rw [can_trigger_fail_self s.data n p none hf] at hct
        exact absurd hct (by simp)
      have hf1 : (s.data.set name (sys.runF name inputs)).stateGet n = some (.fail p) := by
        rw [stateGet_set_ne _ _ _ _ hname_n]
        exact hf
      obtain ⟨ihf, ihc⟩ := ih
        { data := s.data.set name (sys.runF name inputs),
          act := if isWaitingB (sys.runF name inputs) then .Pause else s.act,
          log := s.log ++ [.ran name (sys.runF name inputs)] } true hf1
      refine ⟨ihf, ?_⟩
      intro m hdep
      have hname_m : name ≠ m := by
        intro h
        rw [h] at hct
        rw [can_trigger_fail_input s.data m n p none hdep hf] at hct
        exact absurd hct (by simp)
      obtain ⟨hc1, hc2⟩ := ihc m hdep
      rw [hc1, hc2, countRan_append_ran_other m name _ _ hname_m,
        countResumed_append_ran m name _ _]
      exact ⟨rfl, rfl⟩
    | none => exact ih s any hf

theorem runNodesF_graph (sys : Sys) : ∀ fuel s,
    (runNodesF sys fuel s).data.graph = s.data.graph := by
  intro fuel
  induction fuel with
  | zero => intro s; rfl
  | succ f ih =>
    intro s
    unfold runNodesF
    cases hrp : runPass sys sys.nodeNames s false with
    | mk s' b =>
      have hgr : s'.data.graph = s.data.graph := by
        have := runPass_graph sys sys.nodeNames s false
        rw [hrp] at this
        exact this
      cases b with
      | true => rw [ih s', hgr]
      | false => exact hgr

theorem runNodesF_fail (sys : Sys) (n : String) (p : Option Payload) : ∀ fuel s,
    s.data.stateGet n = some (.fail p) →
    ((runNodesF sys fuel s).data.stateGet n = some (.fail p)) ∧
    ∀ m, n ∈ s.data.graph.each_input m →
      countRan m ((runNodesF sys fuel s).log) = countRan m s.log ∧
      countResumed m ((runNodesF sys fuel s).log) = countResumed m s.log := by
  intro fuel
  induction fuel with
  | zero => intro s hf; exact ⟨hf, fun m _ => ⟨rfl, rfl⟩⟩
  | succ f ih =>
    intro s hf
    unfold runNodesF
    cases hrp : runPass sys sys.nodeNames s false with
    | mk s' b =>
      have hrp1 : (runPass sys sys.nodeNames s false).1 = s' := by rw [hrp]
      have hpf := runPass_fail sys sys.nodeNames n p s false hf
      rw [hrp1] at hpf
      obtain ⟨hf', hc'⟩ := hpf
      have hgr : s'.data.graph = s.data.graph := by
        have := runPass_graph sys sys.nodeNames s false
        rw [hrp1] at this
        exact this
      cases b with
      | true =>
        obtain ⟨ihf, ihc⟩ := ih s' hf'
        refine ⟨ihf, ?_⟩
        intro m hdep
        have hdep' : n ∈ s'.data.graph.each_input m := by rw [hgr]; exact hdep
        obtain ⟨hc1, hc2⟩ := ihc m hdep'
        obtain ⟨hc3, hc4⟩ := hc' m hdep
        rw [hc1, hc2, hc3, hc4]
        exact ⟨rfl, rfl⟩
      | false => exact ⟨hf', hc'⟩

theorem run_nodes_fail (sys : Sys) (n : String) (p : Option Payload) (d : Data)
    (log : List LogEntry) (hf : d.stateGet n = some (.fail p)) :
    ((run_nodes sys d log).data.stateGet n = some (.fail p)) ∧
    ((run_nodes sys d log).data.graph = d.graph) ∧
    ∀ m, n ∈ d.graph.each_input m →
      countRan m ((run_nodes sys d log).log) = countRan m log ∧
      countResumed m ((run_nodes sys d log).log) = countResumed m log := by
  obtain ⟨h1, h2⟩ := runNodesF_fail sys n p (sys.nodeNames.length + 1) ⟨d, .Continue, log⟩ hf
  exact ⟨h1, runNodesF_graph sys _ _, h2⟩

theorem resumeScan_fail (sys : Sys) (n : String) (p : Option Payload) (tok : Nat)
    (names : List String) : ∀ d log, d.stateGet n = some (.fail p) →
    ((resumeScan sys d log tok names).1.stateGet n = some (.fail p)) ∧
    ((resumeScan sys d log tok names).1.graph = d.graph) ∧
    ∀ m, n ∈ d.graph.each_input m →
      countRan m (resumeScan sys d log tok names).2 = countRan m log ∧
      countResumed m (resumeScan sys d log tok names).2 = countResumed m log := by
  induction names with
  | nil => intro d log hf; exact ⟨hf, rfl, fun m _ => ⟨rfl, rfl⟩⟩
  | cons name rest ih =>
    intro d log hf
    unfold resumeScan
    cases hg : d.get_inputs_for name (some tok) with
    | some inputs =>
      have hct : d.can_trigger name (some tok) = true := get_inputs_some_trigger _ _ _ _ hg
      have hname_n : n ≠ name := by
        intro h
        rw [← h] at hct
        rw [can_trigger_fail_self d n p _ hf] at hct
        exact absurd hct (by simp)
      refine ⟨?_, rfl, ?_⟩
      · rw [stateGet_set_ne _ _ _ _ hname_n]
        exact hf
      · intro m hdep
        have hname_m : name ≠ m := by
          intro h
          rw [h] at hct
          rw [can_trigger_fail_input d m n p _ hdep hf] at hct
          exact absurd hct (by simp)
        rw [countRan_append_resumed m name _ _ _,
          countResumed_append_resumed_other m name _ _ _ hname_m]
        exact ⟨rfl, rfl⟩
    | none => exact ih d log hf

theorem handleEvent_fail (sys : Sys) (n : String) (p : Option Payload)
    (hres : n ∉ reservedNodeNames) (e : Event) : ∀ d log,
    d.stateGet n = some (.fail p) →
    ((handleEvent sys d log e).data.stateGet n = some (.fail p)) ∧
    ((handleEvent sys d log e).data.graph = d.graph) ∧
    ∀ m, n ∈ d.graph.each_input m →
      countRan m (handleEvent sys d log e).log = countRan m log ∧
      countResumed m (handleEvent sys d log e).log = countResumed m log := by
  have hrh : n ≠ "request_headers" :=
    ne_of_not_reserved n hres _ (by simp [reservedNodeNames])
  have hrb : n ≠ "request_body" :=
    ne_of_not_reserved n hres _ (by simp [reservedNodeNames])
  have hsrh : n ≠ "service_response_headers" :=
    ne_of_not_reserved n hres _ (by simp [reservedNodeNames])
  have hsrb : n ≠ "service_response_body" :=
    ne_of_not_reserved n hres _ (by simp [reservedNodeNames])
  cases e with
  | requestHeaders hs =>
    intro d log hf
    unfold handleEvent on_http_request_headers
    cases hflag : do_request_headers sys with
    | false =>
      simp only [hflag, if_false]
      exact run_nodes_fail sys n p d log hf
    | true =>
      simp only [hflag, if_true]
      have hf1 : (d.set "request_headers" (.done (some (from_pwm_headers hs)))).stateGet n =
          some (.fail p) := by
        rw [stateGet_set_ne _ _ _ _ hrh]
        exact hf
      exact run_nodes_fail sys n p _ log hf1
  | requestBody b ct eof =>
    intro d log hf
    unfold handleEvent on_http_request_body
    cases hflag : (eof && do_request_body sys) with
    | false =>
      simp only [hflag, if_false]
      exact run_nodes_fail sys n p d log hf
    | true =>
      simp only [hflag, if_true]
      cases b with
      | none => exact run_nodes_fail sys n p d log hf
      | some bytes =>
        have hf1 : (d.set "request_body"
            (.done (Payload.from_bytes sys.parse bytes ct))).stateGet n = some (.fail p) := by
          rw [stateGet_set_ne _ _ _ _ hrb]
          exact hf
        exact run_nodes_fail sys n p _ log hf1
  | responseHeaders hs =>
    intro d log hf
    unfold handleEvent on_http_response_headers
    cases hflag : do_service_response_headers sys with
    | false =>
      simp only [hflag, if_false]
      exact run_nodes_fail sys n p d log hf
    | true =>
      simp only [hflag, if_true]
      have hf1 : (d.set "service_response_headers"
          (.done (some (from_pwm_headers hs)))).stateGet n = some (.fail p) := by
        rw [stateGet_set_ne _ _ _ _ hsrh]
        exact hf
      exact run_nodes_fail sys n p _ log hf1
  | responseBody b ct eof =>
    intro d log hf
    cases eof with
    | false => exact ⟨hf, rfl, fun m _ => ⟨rfl, rfl⟩⟩
    | true =>
      unfold handleEvent on_http_response_body
      cases hflag : do_service_response_body sys with
      | false =>
        simp only [hflag, if_false]
        exact run_nodes_fail sys n p d log hf
      | true =>
        simp only [hflag, if_true]
        cases b with
        | none => exact run_nodes_fail sys n p d log hf
        | some bytes =>
          have hf1 : (d.set "service_response_body"
              (.done (Payload.from_bytes sys.parse bytes ct))).stateGet n = some (.fail p) := by
            rw [stateGet_set_ne _ _ _ _ hsrb]
            exact hf
          exact run_nodes_fail sys n p _ log hf1
  | callResponse tok =>
    intro d log hf
    unfold handleEvent on_http_call_response
    obtain ⟨hf1, hgr1, hc1⟩ := resumeScan_fail sys n p tok sys.nodeNames d log hf
    obtain ⟨hf2, hgr2, hc2⟩ := run_nodes_fail sys n p _ _ hf1
    refine ⟨hf2, by rw [hgr2, hgr1], ?_⟩
    intro m hdep
    have hdep1 : n ∈ (resumeScan sys d log tok sys.nodeNames).1.graph.each_input m := by
      rw [hgr1]
      exact hdep
    obtain ⟨ha1, ha2⟩ := hc1 m hdep
    obtain ⟨hb1, hb2⟩ := hc2 m hdep1
    rw [hb1, hb2, ha1, ha2]
    exact ⟨rfl, rfl⟩

theorem runTxn_fail (sys : Sys) (n : String) (p : Option Payload)
    (hres : n ∉ reservedNodeNames) : ∀ evs d log,
    d.stateGet n = some (.fail p) →
    ((runTxn sys d log evs).1.stateGet n = some (.fail p)) ∧
    ((runTxn sys d log evs).1.graph = d.graph) ∧
    ∀ m, n ∈ d.graph.each_input m →
      countRan m (runTxn sys d log evs).2 = countRan m log ∧
      countResumed m (runTxn sys d log evs).2 = countResumed m log := by
  intro evs
  induction evs with
  | nil => intro d log hf; exact ⟨hf, rfl, fun m _ => ⟨rfl, rfl⟩⟩
  | cons e rest ih =>
    intro d log hf
    unfold runTxn
    obtain ⟨hf1, hgr1, hc1⟩ := handleEvent_fail sys n p hres e d log hf
    obtain ⟨hf2, hgr2, hc2⟩ := ih (handleEvent sys d log e).data (handleEvent sys d log e).log hf1
    refine ⟨hf2, by rw [hgr2, hgr1], ?_⟩
    intro m hdep
    have hdep1 : n ∈ (handleEvent sys d log e).data.graph.each_input m := by
      rw [hgr1]
      exact hdep
    obtain ⟨ha1, ha2⟩ := hc1 m hdep
    obtain ⟨hb1, hb2⟩ := hc2 m hdep1
    rw [hb1, hb2, ha1, ha2]
    exact ⟨rfl, rfl⟩

/-- C4: once the recorded state of a node n is Fail, it stays Fail for the
whole remainder of the transaction, and no dependent of n (a node with n
among its providers) ever fires again: neither its run nor its resume is
invoked in any later scheduler pass or phase. -/
theorem fail_absorbs (sys : Sys) (d : Data) (n m : String) (p : Option Payload)
    (evs : List Event)
    (hfail : d.stateGet n = some (.fail p))
    (hnres : n ∉ reservedNodeNames)
    (hdep : n ∈ d.graph.each_input m) :
    ((runTxn sys d [] evs).1.stateGet n = some (.fail p)) ∧
    countRan m (runTxn sys d [] evs).2 = 0 ∧
    countResumed m (runTxn sys d [] evs).2 = 0 := by
  obtain ⟨h1, _, h3⟩ := runTxn_fail sys n p hnres evs d [] hfail
  obtain ⟨hc1, hc2⟩ := h3 m hdep
  exact ⟨h1, by rw [hc1]; rfl, by rw [hc2]; rfl⟩

theorem countRan_append_ran_self (n : String) (st : NState) (l : List LogEntry) :
    countRan n (l ++ [.ran n st]) = countRan n l + 1 := by
  simp [countRan, List.countP_append, List.countP_cons, isRan]

theorem countResumed_append_resumed_self (n : String) (tok : Nat) (st : NState)
    (l : List LogEntry) :
    countResumed n (l ++ [.resumed n tok st]) = countResumed n l + 1 := by
  simp [countResumed, List.countP_append, List.countP_cons, isResumed]

theorem append_singleton_cases {α : Type} {l : List α} {e : α} {pre post : List α} {r : α}
    (h : l ++ [e] = pre ++ r :: post) :
    (post = [] ∧ pre = l ∧ r = e) ∨ ∃ post', post = post' ++ [e] ∧ l = pre ++ r :: post' := by
  rcases List.eq_nil_or_concat post with rfl | ⟨post', e', rfl⟩
  · left
    have hlen : l.length = pre.length := by
      have := congrArg List.length h
      simp at this
      omega
    obtain ⟨h1, h2⟩ := List.append_inj h hlen
    have he : e = r := by
      have := List.cons.injEq e [] r [] ▸ h2
      simp at h2
      exact h2
    exact ⟨rfl, h1.symm, he.symm⟩
  · right
    rw [List.concat_eq_append] at h ⊢
    rw [show pre ++ r :: (post' ++ [e']) = (pre ++ r :: post') ++ [e'] by simp] at h
    have hlen : l.length = (pre ++ r :: post').length := by
      have := congrArg List.length h
      simp [List.length_append] at this ⊢
      omega
    obtain ⟨h1, h2⟩ := List.append_inj h hlen
    have he : e = e' := by simp at h2; exact h2
    exact ⟨post', by rw [he], h1⟩

theorem resumeOrder_append_not (n : String) (log : List LogEntry) (e : LogEntry)
    (h5 : ∀ pre tok st post, log = pre ++ LogEntry.resumed n tok st :: post →
      LogEntry.ran n (.waiting tok) ∈ pre)
    (he : ∀ tok st, e ≠ LogEntry.resumed n tok st) :
    ∀ pre tok st post, log ++ [e] = pre ++ LogEntry.resumed n tok st :: post →
      LogEntry.ran n (.waiting tok) ∈ pre := by
  intro pre tok st post h
  rcases append_singleton_cases h with ⟨_, _, hr⟩ | ⟨post', _, hl⟩
  · exact absurd hr.symm (he tok st)
  · exact h5 pre tok st post' hl

theorem resumeOrder_append_resumed (n : String) (log : List LogEntry) (tok0 : Nat)
    (st0 : NState)
    (h5 : ∀ pre tok st post, log = pre ++ LogEntry.resumed n tok st :: post →
      LogEntry.ran n (.waiting tok) ∈ pre)
    (hmem : LogEntry.ran n (.waiting tok0) ∈ log) :
    ∀ pre tok st post,
      log ++ [LogEntry.resumed n tok0 st0] = pre ++ LogEntry.resumed n tok st :: post →
      LogEntry.ran n (.waiting tok) ∈ pre := by
  intro pre tok st post h
  rcases append_singleton_cases h with ⟨_, hpre, hr⟩ | ⟨post', _, hl⟩
  · have htok : tok = tok0 := by
      injection hr.symm with _ h2 _
      exact h2.symm
    rw [hpre, htok]
    exact hmem
  · exact h5 pre tok st post' hl

theorem ranOnceInv_set_done (n : String) (d : Data) (log : List LogEntry) (m : String)
    (p : Option Payload) (hinv : ranOnceInv n d log) :
    ranOnceInv n (d.set m (.done p)) log := by
  obtain ⟨j1, j2, j3, j4, j5⟩ := hinv
  refine ⟨?_, j2, j3, ?_, j5⟩
  · intro hnone
    by_cases hm : n = m
    · subst hm
      rw [stateGet_set_self] at hnone
      exact absurd hnone (by simp)
    · rw [stateGet_set_ne _ _ _ _ hm] at hnone
      exact j1 hnone
  · intro w hw
    by_cases hm : n = m
    · subst hm
      rw [stateGet_set_self] at hw
      exact absurd hw (by simp)
    · rw [stateGet_set_ne _ _ _ _ hm] at hw
      exact j4 w hw

theorem runPass_ranInv (sys : Sys) (names : List String) (n : String) : ∀ s any,
    ranOnceInv n s.data s.log →
    ranOnceInv n ((runPass sys names s any).1).data ((runPass sys names s any).1).log := by
  induction names with
  | nil => intro s any hinv; exact hinv
  | cons name rest ih =>
    intro s any hinv
    unfold runPass
    cases hg : s.data.get_inputs_for name none with
    | some inputs =>
      apply ih
      obtain ⟨j1, j2, j3, j4, j5⟩ := hinv
      by_cases hn : name = n
      · subst hn
        have hnone : s.data.stateGet name = none :=
          can_trigger_none_state _ _ (get_inputs_some_trigger _ _ _ _ hg)
        obtain ⟨hz1, hz2⟩ := j1 hnone
        refine ⟨?_, ?_, ?_, ?_, ?_⟩
        · intro h
          rw [stateGet_set_self] at h
          exact absurd h (by simp)
        · rw [countRan_append_ran_self, hz1]
        · rw [countResumed_append_ran, hz2]
          omega
        · intro w hw
          rw [stateGet_set_self] at hw
          have hst : sys.runF name inputs = .waiting w := Option.some.inj hw
          refine ⟨?_, ?_⟩
          · rw [← hst]
            exact List.mem_append_right _ (List.mem_singleton.mpr rfl)
          · rw [countResumed_append_ran, hz2]
        · exact resumeOrder_append_not name s.log _ j5 (fun tok st h => by cases h)
      · have hne : n ≠ name := fun hh => hn hh.symm
        refine ⟨?_, ?_, ?_, ?_, ?_⟩
        · intro h
          rw [stateGet_set_ne _ _ _ _ hne] at h
          obtain ⟨hz1, hz2⟩ := j1 h
          rw [countRan_append_ran_other _ _ _ _ hn, countResumed_append_ran, hz1, hz2]
          exact ⟨rfl, rfl⟩
        · rw [countRan_append_ran_other _ _ _ _ hn]
          exact j2
        · rw [countResumed_append_ran]
          exact j3
        · intro w hw
          rw [stateGet_set_ne _ _ _ _ hne] at hw
          obtain ⟨hmem, hz⟩ := j4 w hw
          exact ⟨List.mem_append_left _ hmem, by rw [countResumed_append_ran]; exact hz⟩
        · exact resumeOrder_append_not n s.log _ j5 (fun tok st h => by cases h)
    | none => exact ih s any hinv

theorem runNodesF_ranInv (sys : Sys) (n : String) : ∀ fuel s,
    ranOnceInv n s.data s.log →
    ranOnceInv n ((runNodesF sys fuel s).data) ((runNodesF sys fuel s).log) := by
  intro fuel
  induction fuel with
  | zero => intro s hinv; exact hinv
  | succ f ih =>
    intro s hinv
    unfold runNodesF
    cases hrp : runPass sys sys.nodeNames s false with
    | mk s' b =>
      have hrp1 : (runPass sys sys.nodeNames s false).1 = s' := by rw [hrp]
      have hinv' := runPass_ranInv sys sys.nodeNames n s false hinv
      rw [hrp1] at hinv'
      cases b with
      | true => exact ih s' hinv'
      | false => exact hinv'

theorem run_nodes_ranInv (sys : Sys) (n : String) (d : Data) (log : List LogEntry)
    (hinv : ranOnceInv n d log) :
    ranOnceInv n (run_nodes sys d log).data (run_nodes sys d log).log :=
  runNodesF_ranInv sys n _ ⟨d, .Continue, log⟩ hinv

theorem gate_some_waiting (sys : Sys) (d : Data) (name : String) (tok : Nat)
    (hmem : name ∈ sys.nodeNames) (hq : quiescent sys d)
    (hct : d.can_trigger name (some tok) = true) :
    d.stateGet name = some (.waiting tok) := by
  have hqn := hq name hmem
  unfold Data.can_trigger at hct hqn
  cases hs : d.stateGet name with
  | none =>
    rw [hs] at hct hqn
    simp at hct hqn
    exact absurd hct (by simp [hqn])
  | some st =>
    cases st with
    | waiting w =>
      rw [hs] at hct
      simp at hct
      rw [hct.1]
    | done p => rw [hs] at hct; simp at hct
    | fail p => rw [hs] at hct; simp at hct

theorem resumeScan_ranInv (sys : Sys) (n : String) (tok : Nat) (names : List String)
    (hsub : ∀ x ∈ names, x ∈ sys.nodeNames)
    (hres : ∀ m inputs, isWaitingB (sys.resumeF m inputs) = false) :
    ∀ d log, quiescent sys d → ranOnceInv n d log →
    ranOnceInv n (resumeScan sys d log tok names).1 (resumeScan sys d log tok names).2 := by
  induction names with
  | nil => intro d log _ hinv; exact hinv
  | cons name rest ih =>
    intro d log hq hinv
    unfold resumeScan
    cases hg : d.get_inputs_for name (some tok) with
    | some inputs =>
      have hw : d.stateGet name = some (.waiting tok) :=
        gate_some_waiting sys d name tok (hsub name (List.mem_cons_self _ _)) hq
          (get_inputs_some_trigger _ _ _ _ hg)
      obtain ⟨j1, j2, j3, j4, j5⟩ := hinv
      by_cases hn : name = n
      · subst hn
        obtain ⟨hmem, hz⟩ := j4 tok hw
        refine ⟨?_, ?_, ?_, ?_, ?_⟩
        · intro h
          rw [stateGet_set_self] at h
          exact absurd h (by simp)
        · rw [countRan_append_resumed]
          exact j2
        · rw [countResumed_append_resumed_self, hz]
        · intro w hww
          rw [stateGet_set_self] at hww
          have hst : sys.resumeF name inputs = .waiting w := Option.some.inj hww
          have := hres name inputs
          rw [hst] at this
          exact absurd this (by simp [isWaitingB])
        · exact resumeOrder_append_resumed name log tok _ j5 hmem
      · have hne : n ≠ name := fun hh => hn hh.symm
        refine ⟨?_, ?_, ?_, ?_, ?_⟩
        · intro h
          rw [stateGet_set_ne _ _ _ _ hne] at h
          obtain ⟨hz1, hz2⟩ := j1 h
          rw [countRan_append_resumed, countResumed_append_resumed_other _ _ _ _ _ hn]
          exact ⟨hz1, hz2⟩
        · rw [countRan_append_resumed]
          exact j2
        · rw [countResumed_append_resumed_other _ _ _ _ _ hn]
          exact j3
        · intro w hww
          rw [stateGet_set_ne _ _ _ _ hne] at hww
          obtain ⟨hmem, hz⟩ := j4 w hww
          refine ⟨List.mem_append_left _ hmem, ?_⟩
          rw [countResumed_append_resumed_other _ _ _ _ _ hn]
          exact hz
        · refine resumeOrder_append_not n log _ j5 ?_
          intro tok' st' h
          injection h with h1 _ _
          exact hn h1
    | none =>
      exact ih (fun x hx => hsub x (List.mem_cons_of_mem _ hx)) d log hq hinv

theorem handleEvent_requestHeaders_inv (sys : Sys) (n : String)
    (hs : List (String × String)) (d : Data) (log : List LogEntry)
    (hinv : ranOnceInv n d log) :
    ranOnceInv n (handleEvent sys d log (.requestHeaders hs)).data
      (handleEvent sys d log (.requestHeaders hs)).log ∧
    quiescent sys (handleEvent sys d log (.requestHeaders hs)).data := by
  unfold handleEvent on_http_request_headers
  cases hflag : do_request_headers sys with
  | true =>
    simp only [hflag, if_true]
    exact ⟨run_nodes_ranInv sys n _ log (ranOnceInv_set_done n d log _ _ hinv),
      run_nodes_quiescent sys _ log⟩
  | false =>
    simp only [hflag, if_false]
    exact ⟨run_nodes_ranInv sys n d log hinv, run_nodes_quiescent sys d log⟩

theorem handleEvent_inv (sys : Sys) (n : String)
    (hres : ∀ m inputs, isWaitingB (sys.resumeF m inputs) = false) (e : Event)
    (d : Data) (log : List LogEntry) (hq : quiescent sys d)
    (hinv : ranOnceInv n d log) :
    ranOnceInv n (handleEvent sys d log e).data (handleEvent sys d log e).log ∧
    quiescent sys (handleEvent sys d log e).data := by
  cases e with
  | requestHeaders hs => exact handleEvent_requestHeaders_inv sys n hs d log hinv
  | requestBody b ct eof =>
    unfold handleEvent on_http_request_body
    cases hflag : (eof && do_request_body sys) with
    | true =>
      simp only [hflag, if_true]
      cases b with
      | none => exact ⟨run_nodes_ranInv sys n d log hinv, run_nodes_quiescent sys d log⟩
      | some bytes =>
        exact ⟨run_nodes_ranInv sys n _ log (ranOnceInv_set_done n d log _ _ hinv),
          run_nodes_quiescent sys _ log⟩
    | false =>
      simp only [hflag, if_false]
      exact ⟨run_nodes_ranInv sys n d log hinv, run_nodes_quiescent sys d log⟩
  | responseHeaders hs =>
    unfold handleEvent on_http_response_headers
    cases hflag : do_service_response_headers sys with
    | true =>
      simp only [hflag, if_true]
      exact ⟨run_nodes_ranInv sys n _ log (ranOnceInv_set_done n d log _ _ hinv),
        run_nodes_quiescent sys _ log⟩
    | false =>
      simp only [hflag, if_false]
      exact ⟨run_nodes_ranInv sys n d log hinv, run_nodes_quiescent sys d log⟩
  | responseBody b ct eof =>
    cases eof with
    | false => exact ⟨hinv, hq⟩
    | true =>
      unfold handleEvent on_http_response_body
      cases hflag : do_service_response_body sys with
      | true =>
        simp only [hflag, if_true]
        cases b with
        | none => exact ⟨run_nodes_ranInv sys n d log hinv, run_nodes_quiescent sys d log⟩
        | some bytes =>
          exact ⟨run_nodes_ranInv sys n _ log (ranOnceInv_set_done n d log _ _ hinv),
            run_nodes_quiescent sys _ log⟩
      | false =>
        simp only [hflag, if_false]
        exact ⟨run_nodes_ranInv sys n d log hinv, run_nodes_quiescent sys d log⟩
  | callResponse tok =>
    unfold handleEvent on_http_call_response
    have hinv1 := resumeScan_ranInv sys n tok sys.nodeNames (fun x hx => hx) hres
      d log hq hinv
    exact ⟨run_nodes_ranInv sys n _ _ hinv1, run_nodes_quiescent sys _ _⟩

theorem runTxn_inv (sys : Sys) (n : String)
    (hres : ∀ m inputs, isWaitingB (sys.resumeF m inputs) = false) : ∀ evs d log,
    quiescent sys d → ranOnceInv n d log →
    ranOnceInv n (runTxn sys d log evs).1 (runTxn sys d log evs).2 := by
  intro evs
  induction evs with
  | nil => intro d log _ hinv; exact hinv
  | cons e rest ih =>
    intro d log hq hinv
    obtain ⟨hi, hqo⟩ := handleEvent_inv sys n hres e d log hq hinv
    exact ih _ _ hqo hi

theorem ranOnceInv_init (n : String) (graph : DependencyGraph) :
    ranOnceInv n (Data.new graph) [] := by
  refine ⟨fun _ => ⟨rfl, rfl⟩, by simp [countRan], by simp [countResumed], ?_, ?_⟩
  · intro w hw
    exact absurd hw (by simp [Data.new, Data.stateGet, lookupS])
  · intro pre tok st post h
    exact absurd h (by simp)

/-- C5: in every transaction (an event sequence started by the request
headers callback), each node runs at most once and resumes at most once,
and every resume delivered with token t is preceded in the firing log by
the run of the same node that returned Waiting(t). -/
theorem firing_at_most_once (sys : Sys) (n : String) (evs : List Event)
    (hres : ∀ m inputs, isWaitingB (sys.resumeF m inputs) = false)
    (hhead : ∀ e, evs.head? = some e → ∃ hs, e = Event.requestHeaders hs) :
    countRan n (runTxn sys (Data.new sys.graph) [] evs).2 ≤ 1 ∧
    countResumed n (runTxn sys (Data.new sys.graph) [] evs).2 ≤ 1 ∧
    (∀ pre tok st post,
      (runTxn sys (Data.new sys.graph) [] evs).2 =
        pre ++ LogEntry.resumed n tok st :: post →
      LogEntry.ran n (NState.waiting tok) ∈ pre) := by
  cases evs with
  | nil =>
    refine ⟨by simp [countRan, runTxn], by simp [countResumed, runTxn], ?_⟩
    intro pre tok st post h
    exact absurd h (by simp [runTxn])
  | cons e rest =>
    obtain ⟨hs, rfl⟩ := hhead e rfl
    obtain ⟨hi, hq⟩ := handleEvent_requestHeaders_inv sys n hs (Data.new sys.graph) []
      (ranOnceInv_init n sys.graph)
    have hinv := runTxn_inv sys n hres rest _ _ hq hi
    obtain ⟨_, j2, j3, _, j5⟩ := hinv
    exact ⟨j2, j3, j5⟩

/-- Witness for firing_at_most_once: one call node suspending on token 5
and resumed by the matching call-response callback. -/
theorem firing_at_most_once_witness :
    countRan "a" (runTxn c5Sys (Data.new c5Sys.graph) []
      [.requestHeaders [], .callResponse 5]).2 ≤ 1 ∧
    countResumed "a" (runTxn c5Sys (Data.new c5Sys.graph) []
      [.requestHeaders [], .callResponse 5]).2 ≤ 1 ∧
    (∀ pre tok st post,
      (runTxn c5Sys (Data.new c5Sys.graph) []
        [.requestHeaders [], .callResponse 5]).2 =
          pre ++ LogEntry.resumed "a" tok st :: post →
      LogEntry.ran "a" (NState.waiting tok) ∈ pre) :=
  firing_at_most_once c5Sys "a" [.requestHeaders [], .callResponse 5]
    (fun _ _ => rfl)
    (fun _e he => ⟨[], (Option.some.inj he).symm⟩)

/-- Witness for fail_absorbs: with node c failed, a request-headers
callback fires nothing for its dependent r. -/
theorem fail_absorbs_witness :
    ((runTxn c4Sys c4Data [] [.requestHeaders []]).1.stateGet "c" =
      some (.fail (some (.error "boom")))) ∧
    countRan "r" (runTxn c4Sys c4Data [] [.requestHeaders []]).2 = 0 ∧
    countResumed "r" (runTxn c4Sys c4Data [] [.requestHeaders []]).2 = 0 :=
  fail_absorbs c4Sys c4Data "c" "r" (some (.error "boom")) [.requestHeaders []]
    rfl (by simp [reservedNodeNames]) (by simp [c4Data, c4Sys, DependencyGraph.add,
      DependencyGraph.each_input, add_to, lookupS])

end Datakit
